import Mathlib

/-!
# RSA.cpp: a shallow embedding and its verified properties

The program of `src/RSA/RSA.cpp` is embedded function by function.

* `unsigned int` values are natural numbers below `2 ^ 32`, `unsigned long long`
  values natural numbers below `2 ^ 64`; every operation that can wrap carries its
  `% 2 ^ w` explicitly.
* `int` values are integers; `toInt` and `toUInt` are the conversions between the two
  32-bit types.  Signed overflow is undefined behaviour in C++, so the signed
  operations of `bezout` and `getPrime` are range-checked and stop with
  `Error.overflow` when a value leaves the `int` range.
* A `std::string` is the list of its bytes (`0 .. 255`); plain `char` is signed, as on
  the platform the source is written for (`stdafx.h`), so a byte `c ≥ 128` reads as
  `c - 256`.  String and vector lengths are assumed to fit in an `int`.
* The random draws `distribution( generator )` are parameters of the functions that
  make them.
* Loops whose termination is not evident from a decreasing quantity take a `fuel`
  bound on their number of iterations and stop with `Error.fuel` when it is used up.
-/

namespace RSA

/-! ## Machine integers -/

/-- The lower bound `PRIME_DIST_LO` of the prime sampling interval. -/
def PRIME_DIST_LO : Int := 1001

/-- The upper bound `PRIME_DIST_HI` of the prime sampling interval. -/
def PRIME_DIST_HI : Int := 10001

/-- Conversion of an integer value to `unsigned int`: reduction modulo `2 ^ 32`. -/
def toUInt (v : Int) : Nat := (v % 2 ^ 32).toNat

/-- Conversion of an `unsigned int` to `int`: values from `2 ^ 31` on become negative. -/
def toInt (u : Nat) : Int :=
  if u % 2 ^ 32 < 2 ^ 31 then ((u % 2 ^ 32 : Nat) : Int) else ((u % 2 ^ 32 : Nat) : Int) - 2 ^ 32

/-- The value is representable as a 32-bit `int`. -/
def inIntRange (v : Int) : Prop := -2 ^ 31 ≤ v ∧ v < 2 ^ 31

instance (v : Int) : Decidable (inIntRange v) := by
  unfold inIntRange
  exact inferInstance

/-! ## Errors -/

/-- The diagnostics passed to `Error::FatalError`, with the values they print. -/
inductive Diagnostic where
  /-- The text "Bad coefficients: a: .. b: .." of `bezout`. -/
  | badCoefficients (a b : Int)
  /-- The text "Modulus is not a positive integer: .." of `isPrime`. -/
  | modulusNotPositive (n : Nat)
  /-- The text "Bad modulus: .." of `inverseModN`. -/
  | badModulus (n : Nat)
  deriving DecidableEq, Repr

/-- The ways a call can end without returning a value. -/
inductive Error where
  /-- The call `Error::FatalError( e )`: the diagnostic is printed and the process exits. -/
  | FatalError (e : Diagnostic)
  /-- A signed operation left the range of `int` (undefined behaviour). -/
  | overflow
  /-- The exception `std::out_of_range` (of `substr` and `stoi`). -/
  | out_of_range
  /-- The exception `std::invalid_argument` (of `stoi`). -/
  | invalid_argument
  /-- A fuel-bounded loop did not finish within its fuel. -/
  | fuel
  deriving DecidableEq, Repr

deriving instance DecidableEq for Except

/-! ## OrderedPair -/

/-- The struct `OrderedPair`. -/
structure OrderedPair where
  a_ : Int
  b_ : Int
  deriving DecidableEq, Repr

/-! ## bezout -/

/-- The values computed by one iteration of the loop of `bezout` all fit in an `int`. -/
def bezoutStepInRange (quotient : Int) (r_pair s_pair t_pair : OrderedPair) : Prop :=
  inIntRange quotient ∧
  inIntRange (quotient * r_pair.b_) ∧ inIntRange (r_pair.a_ - quotient * r_pair.b_) ∧
  inIntRange (quotient * s_pair.b_) ∧ inIntRange (s_pair.a_ - quotient * s_pair.b_) ∧
  inIntRange (quotient * t_pair.b_) ∧ inIntRange (t_pair.a_ - quotient * t_pair.b_)

instance (quotient : Int) (r_pair s_pair t_pair : OrderedPair) :
    Decidable (bezoutStepInRange quotient r_pair s_pair t_pair) := by
  unfold bezoutStepInRange
  exact inferInstance

/-- The loop `while( r_pair.b_ != 0 )` of `bezout`, on the three pairs `(prevX, x)`. -/
def bezoutLoop (r_pair s_pair t_pair : OrderedPair) : Except Error OrderedPair :=
  if r_pair.b_ ≠ 0 then
    let quotient := Int.tdiv r_pair.a_ r_pair.b_
    if bezoutStepInRange quotient r_pair s_pair t_pair then
      bezoutLoop
        ⟨r_pair.b_, r_pair.a_ - quotient * r_pair.b_⟩
        ⟨s_pair.b_, s_pair.a_ - quotient * s_pair.b_⟩
        ⟨t_pair.b_, t_pair.a_ - quotient * t_pair.b_⟩
    else
      .error .overflow
  else
    .ok ⟨s_pair.a_, t_pair.a_⟩
termination_by r_pair.b_.natAbs
decreasing_by
  rename_i h _
  have h1 : r_pair.a_ - Int.tdiv r_pair.a_ r_pair.b_ * r_pair.b_ =
      Int.tmod r_pair.a_ r_pair.b_ := by
    have := Int.tmod_add_tdiv r_pair.a_ r_pair.b_
    linarith
  have h2 : (Int.tmod r_pair.a_ r_pair.b_).natAbs = r_pair.a_.natAbs % r_pair.b_.natAbs := by
    cases r_pair.a_ <;> cases r_pair.b_ <;> simp [Int.tmod, Int.natAbs_neg] <;> rfl
  show (r_pair.a_ - Int.tdiv r_pair.a_ r_pair.b_ * r_pair.b_).natAbs < r_pair.b_.natAbs
  rw [h1, h2]
  exact Nat.mod_lt _ (by omega)

/-- The function `bezout`: the coefficients `(x, y)` of `(a, b)` in `ax + by = d`. -/
def bezout (a b : Int) : Except Error OrderedPair :=
  if a ≤ 0 ∨ b ≤ 0 then
    .error (.FatalError (.badCoefficients a b))
  else
    bezoutLoop ⟨a, b⟩ ⟨1, 0⟩ ⟨0, 1⟩

/-! ## GCD -/

/-- The loop `while( b != 0 )` of `GCD`. -/
def gcdLoop (a b : Nat) : Nat :=
  if b ≠ 0 then gcdLoop b (a % b) else a
termination_by b
decreasing_by
  rename_i h
  exact Nat.mod_lt _ (Nat.pos_of_ne_zero h)

/-- The function `GCD`: swap so that the larger argument comes first, then loop. -/
def GCD (a b : Nat) : Nat :=
  if a < b then gcdLoop b a else gcdLoop a b

/-! ## modularExponention -/

/-- The size `EXPSZ` (in bits) of the exponent window of `modularExponention`. -/
def EXPSZ : Nat := 64

/-- The `for` loop of `modularExponention` with `i` iterations left; `curr_power` and
`result` are `unsigned long long`, so both products wrap modulo `2 ^ 64`.  For `n = 0`
the source divides by zero; the model then follows the convention `x % 0 = x`. -/
def modExpLoop (n : Nat) : Nat → Nat → Nat → Nat → Nat
  | 0, _, result, _ => result
  | i + 1, curr_power, result, x =>
    modExpLoop n i
      ((curr_power * curr_power) % 2 ^ 64 % n)
      (if 1 &&& x ≠ 0 then (result * curr_power) % 2 ^ 64 % n else result)
      (x >>> 1)

/-- The function `modularExponention`; the final cast narrows to `unsigned int`. -/
def modularExponention (b x n : Nat) : Nat :=
  modExpLoop n EXPSZ b 1 x % 2 ^ 32

/-! ## isPrime and getPrime -/

/-- The function `isPrime`: the bases `2, ..., 99` are tried in order and the first
base whose residues differ ends the loop with `false`. -/
def isPrime (n : Nat) : Except Error Bool :=
  if n < 1 then
    .error (.FatalError (.modulusNotPositive n))
  else
    .ok ((List.range' 2 98).all fun base =>
      decide (modularExponention base n n % n = base % n))

/-- The loop `while( !isPrime( p ) ) { p += 2; }` of `getPrime`. -/
def getPrimeLoop : Nat → Int → Except Error Nat
  | 0, _ => .error .fuel
  | fuel + 1, p =>
    match isPrime (toUInt p) with
    | .error err => .error err
    | .ok true => .ok (toUInt p)
    | .ok false => if inIntRange (p + 2) then getPrimeLoop fuel (p + 2) else .error .overflow

/-- The function `getPrime` for the draw `r` of its distribution. -/
def getPrime (fuel : Nat) (r : Int) : Except Error Nat :=
  if Int.tmod r 2 = 0 then
    (if inIntRange (r + 1) then getPrimeLoop fuel (r + 1) else .error .overflow)
  else
    getPrimeLoop fuel r

/-! ## Key derivation -/

/-- The function `getEulerPhi`, in `unsigned int` arithmetic. -/
def getEulerPhi (p q : Nat) : Nat :=
  (((p + (2 ^ 32 - 1)) % 2 ^ 32) * ((q + (2 ^ 32 - 1)) % 2 ^ 32)) % 2 ^ 32

/-- The loop `while( inverse < 0 ) { inverse += n; }` of `inverseModN`: the sum is
taken in `unsigned int` and stored back into the `int`. -/
def inverseLoop (n : Nat) : Nat → Int → Except Error Int
  | 0, _ => .error .fuel
  | fuel + 1, inverse =>
    if inverse < 0 then inverseLoop n fuel (toInt ((toUInt inverse + n) % 2 ^ 32))
    else .ok inverse

/-- The function `inverseModN`. -/
def inverseModN (fuel : Nat) (e n : Nat) : Except Error Nat :=
  if n ≤ 0 then
    .error (.FatalError (.badModulus n))
  else
    match bezout (toInt n) (toInt e) with
    | .error err => .error err
    | .ok pair =>
      match inverseLoop n fuel pair.b_ with
      | .error err => .error err
      | .ok inverse => .ok (toUInt inverse)

/-- The loop `while( GCD( e, euler_phi ) != 1 ) { e++; }` of `generateExponentFactors`. -/
def exponentLoop (euler_phi : Nat) : Nat → Nat → Except Error Nat
  | 0, _ => .error .fuel
  | fuel + 1, e =>
    if GCD e euler_phi ≠ 1 then exponentLoop euler_phi fuel ((e + 1) % 2 ^ 32) else .ok e

/-- The function `generateExponentFactors` for the draw `e0` of its distribution; the
result is the pair `(e, d)` written through the two reference parameters. -/
def generateExponentFactors (fuel : Nat) (e0 : Int) (euler_phi : Nat) : Except Error (Nat × Nat) :=
  match exponentLoop euler_phi fuel (toUInt e0) with
  | .error err => .error err
  | .ok e =>
    match inverseModN fuel e euler_phi with
    | .error err => .error err
    | .ok d => .ok (e, d)

/-! ## Strings -/

/-- The value of a `char` of a string when it is read into a `short` or an `int`:
plain `char` is signed, so bytes from `128` on read as negative values. -/
def charToInt (c : Nat) : Int :=
  if c % 256 < 128 then ((c % 256 : Nat) : Int) else ((c % 256 : Nat) : Int) - 256

/-- The cast `static_cast<char>( v )` of an `int`: the byte congruent to `v` modulo `256`. -/
def intToChar (v : Int) : Nat := (v % 256).toNat

/-- The decimal digits of `v` as characters, most significant first, in front of `acc`. -/
def decimalLoop : Nat → Nat → List Nat → List Nat
  | 0, _, acc => acc
  | fuel + 1, v, acc =>
    if v < 10 then (48 + v) :: acc else decimalLoop fuel (v / 10) ((48 + v % 10) :: acc)

/-- The function `std::to_string` on an `int`: a minus sign (`45`) for a negative value,
then the decimal digits (`48 .. 57`) of the magnitude without leading zeros. -/
def to_string (v : Int) : List Nat :=
  if v < 0 then 45 :: decimalLoop (v.natAbs + 1) v.natAbs []
  else decimalLoop (v.natAbs + 1) v.natAbs []

/-- The member `std::string::substr( pos, len )`: it throws when `pos` is past the end. -/
def substr (s : List Nat) (pos len : Nat) : Except Error (List Nat) :=
  if pos > s.length then .error .out_of_range else .ok ((s.drop pos).take len)

/-- The classification `isspace` of the "C" locale. -/
def isspace (c : Nat) : Bool := c == 32 || (9 ≤ c && c ≤ 13)

/-- The classification `isdigit`. -/
def isdigit (c : Nat) : Bool := 48 ≤ c && c ≤ 57

/-- The function `std::stoi` in base ten: leading white space is skipped, one sign is
accepted, the longest run of digits is read; it throws `std::invalid_argument` when
there is no digit and `std::out_of_range` when the value does not fit in an `int`. -/
def stoi (str : List Nat) : Except Error Int :=
  let s := str.dropWhile isspace
  let negative := s.head? == some 45
  let s := if s.head? == some 45 || s.head? == some 43 then s.tail else s
  let digits := s.takeWhile isdigit
  if digits = [] then
    .error .invalid_argument
  else
    let magnitude : Nat := digits.foldl (fun acc c => acc * 10 + (c - 48)) 0
    let v : Int := if negative then -(magnitude : Int) else (magnitude : Int)
    if inIntRange v then .ok v else .error .out_of_range

/-! ## encrypt and decrypt -/

/-- The first loop `for( i; i > 0; i -= 2 )` of `encrypt`; it returns the final `i` too. -/
def encryptPairs (input : List Nat) (e n : Nat) (i : Int) (encryptedData : List Int) :
    Int × List Int :=
  if 0 < i then
    let upper := charToInt (input.getD (i - 1).toNat 0)
    let lower := charToInt (input.getD i.toNat 0)
    let encrypted := toInt (modularExponention (toUInt (upper * 1000 + lower)) e n)
    encryptPairs input e n (i - 2) (encrypted :: encryptedData)
  else
    (i, encryptedData)
termination_by i.toNat
decreasing_by omega

/-- The second loop `for( i; i >= 0; i-- )` of `encrypt`. -/
def encryptSingles (input : List Nat) (e n : Nat) (i : Int) (encryptedData : List Int) :
    List Int :=
  if 0 ≤ i then
    let data := charToInt (input.getD i.toNat 0)
    let encrypted := toInt (modularExponention (toUInt data) e n)
    encryptSingles input e n (i - 1) (encrypted :: encryptedData)
  else
    encryptedData
termination_by (i + 1).toNat
decreasing_by omega

/-- The function `encrypt`. -/
def encrypt (input : List Nat) (e n : Nat) : List Int :=
  let r := encryptPairs input e n ((input.length : Int) - 1) []
  encryptSingles input e n r.1 r.2

/-- The loop `while( decryptedSubString.size() < 6 )` of `decrypt`, which inserts the
character `'0'` at the front until six characters are there. -/
def padToSix (s : List Nat) : List Nat :=
  List.replicate (6 - s.length) 48 ++ s

/-- The body of the loop of `decrypt` for the element `c`: the two characters it
appends to `decryptedData`. -/
def decryptBlock (c : Int) (d n : Nat) : Except Error (List Nat) := do
  let decrypted := toInt (modularExponention (toUInt c) d n)
  let decryptedSubString := padToSix (to_string decrypted)
  let upper ← substr decryptedSubString 0 3
  let upperCode ← stoi upper
  let lower ← substr decryptedSubString 3 3
  let lowerCode ← stoi lower
  pure [intToChar upperCode, intToChar lowerCode]

/-- The loop of `decrypt` over the elements still to be read. -/
def decryptLoop (d n : Nat) : List Int → List Nat → Except Error (List Nat)
  | [], decryptedData => .ok decryptedData
  | c :: rest, decryptedData => do
    let block ← decryptBlock c d n
    decryptLoop d n rest (decryptedData ++ block)

/-- The function `decrypt`. -/
def decrypt (encrypted_input : List Int) (d n : Nat) : Except Error (List Nat) :=
  decryptLoop d n encrypted_input []

/-! ## main -/

/-- The values `n`, `e` and `d` that `main` sets up before it reads the message. -/
structure KeyPair where
  n : Nat
  e : Nat
  d : Nat
  deriving DecidableEq, Repr

/-- The loop `while( q == p ) { q = getPrime(); }` of `main`; `draws` are the random draws
of the further calls of `getPrime`, and the loop stops with `Error.fuel` when it needs
more of them than there are. -/
def resampleLoop (fuel : Nat) (p : Nat) : Nat → List Int → Except Error Nat
  | q, [] => if q = p then .error .fuel else .ok q
  | q, r :: draws =>
    if q = p then
      match getPrime fuel r with
      | .error err => .error err
      | .ok q' => resampleLoop fuel p q' draws
    else
      .ok q

/-- The set-up of `main`: `r1` and `r2` are the draws of the two calls of `getPrime`,
`draws` those of the calls made while `q == p`, and `e0` is the draw of
`generateExponentFactors`. -/
def mainSetUp (fuel : Nat) (r1 r2 : Int) (draws : List Int) (e0 : Int) : Except Error KeyPair :=
  match getPrime fuel r1 with
  | .error err => .error err
  | .ok p =>
    match getPrime fuel r2 with
    | .error err => .error err
    | .ok q0 =>
      match resampleLoop fuel p q0 draws with
      | .error err => .error err
      | .ok q =>
        match generateExponentFactors fuel e0 (getEulerPhi p q) with
        | .error err => .error err
        | .ok (e, d) => .ok ⟨(p * q) % 2 ^ 32, e, d⟩

/-! ## Reference definitions used in the statements and proofs -/

/-- The Fermat check in exact arithmetic: `b ^ n ≡ b (mod n)` for every base `2 ≤ b < 100`. -/
def fermatCheck (n : Nat) : Bool :=
  (List.range' 2 98).all fun b => decide (b ^ n % n = b % n)

/-- The prime numbers below `100`. -/
def smallPrimes : List Nat :=
  [2, 3, 5, 7, 11, 13, 17, 19, 23, 29, 31, 37, 41, 43, 47, 53, 59, 61, 67, 71, 73, 79, 83,
    89, 97]

/-- Trial division by the primes below `100`: none of them other than `n` divides `n`. -/
def trialPrime (n : Nat) : Bool :=
  smallPrimes.all fun d => n % d != 0 || d == n

/-- The composite numbers between `1001` and `10007` that pass the Fermat check for all
bases `2, ..., 99` (the Carmichael numbers of that range). -/
def pseudoprimes : List Nat := [1105, 1729, 2465, 2821, 6601, 8911]

/-- Every number from `1001` to `10007` is found prime by trial division, or is one of
the listed pseudoprimes, or fails the Fermat check. -/
def rangeClassified : Bool :=
  (List.range' 1001 9007).all fun n => trialPrime n || decide (n ∈ pseudoprimes) || !fermatCheck n

/-- The number written by a list of digit characters, as `stoi` accumulates it. -/
def digitsVal (ds : List Nat) : Nat :=
  ds.foldl (fun acc c => acc * 10 + (c - 48)) 0

/-- The number `L` is a universal exponent of the modulus `m`: raising to a power
`j + 1` with `L ∣ j` is the identity modulo `m`. -/
def UniversalExponent (m L : Nat) : Prop :=
  ∀ a j : Nat, L ∣ j → a ^ (j + 1) % m = a % m

/-- The value `encrypt` stores for the two characters `upper` and `lower` of a block. -/
def encryptedBlock (upper lower : Nat) (e n : Nat) : Int :=
  toInt (modularExponention (toUInt (charToInt upper * 1000 + charToInt lower)) e n)

/-- The value `encrypt` stores for a single leading character `data`. -/
def encryptedSingle (data : Nat) (e n : Nat) : Int :=
  toInt (modularExponention (toUInt (charToInt data)) e n)

/-- The block encoding as the specification words it, in text order, over the ordinals
`0 .. 255` of the characters: for an even length the blocks `1000 * c(2k) + c(2k+1)`,
for an odd length the single `c(0)` followed by the blocks `1000 * c(2k+1) + c(2k+2)`,
each raised to `e` modulo `n`. -/
def referenceEncrypt (S : List Nat) (e n : Nat) : List Int :=
  if S.length % 2 = 0 then
    (List.range (S.length / 2)).map fun k =>
      (((1000 * S.getD (2 * k) 0 + S.getD (2 * k + 1) 0) ^ e % n : Nat) : Int)
  else
    (((S.getD 0 0) ^ e % n : Nat) : Int) ::
      (List.range (S.length / 2)).map fun k =>
        (((1000 * S.getD (2 * k + 1) 0 + S.getD (2 * k + 2) 0) ^ e % n : Nat) : Int)

/-- Both products of every iteration of the loop of `modularExponention`, taken in exact
arithmetic along the states the loop runs through, are below `2 ^ 64`. -/
def modExpProductsFit (n : Nat) : Nat → Nat → Nat → Nat → Prop
  | 0, _, _, _ => True
  | i + 1, curr_power, result, x =>
    result * curr_power < 2 ^ 64 ∧ curr_power * curr_power < 2 ^ 64 ∧
      modExpProductsFit n i
        ((curr_power * curr_power) % 2 ^ 64 % n)
        (if 1 &&& x ≠ 0 then (result * curr_power) % 2 ^ 64 % n else result)
        (x >>> 1)

/-! ## Conversions between the 32-bit types -/

theorem toUInt_of_nonneg (v : Int) (h0 : 0 ≤ v) (h : v < 2 ^ 32) : toUInt v = v.toNat := by
  unfold toUInt
  rw [Int.emod_eq_of_lt h0 h]

theorem toInt_of_lt (u : Nat) (h : u < 2 ^ 31) : toInt u = (u : Int) := by
  unfold toInt
  have h1 : u % 2 ^ 32 = u := Nat.mod_eq_of_lt (by omega)
  rw [h1, if_pos h]

/-! ## Modular exponentiation -/

theorem one_land_ne_zero_iff (x : Nat) : (1 &&& x ≠ 0) ↔ x % 2 = 1 := by
  rw [Nat.one_and_eq_mod_two]
  omega

theorem modExpLoop_eq (n : Nat) (hn : n ≤ 2 ^ 32) :
    ∀ (i cp res x : Nat), cp < 2 ^ 32 → res < n →
      modExpLoop n i cp res x = (res * cp ^ (x % 2 ^ i)) % n := by
  intro i
  induction i with
  | zero =>
    intro cp res x _ hres
    simp [modExpLoop, Nat.mod_one, Nat.mod_eq_of_lt hres]
  | succ i ih =>
    intro cp res x hcp hres
    have hn0 : 0 < n := by omega
    have hsq : cp * cp < 2 ^ 64 := by nlinarith
    have hrc : res * cp < 2 ^ 64 := by nlinarith
    have hcp' : cp * cp % n < 2 ^ 32 :=
      lt_of_lt_of_le (Nat.mod_lt _ hn0) hn
    have hx : x % 2 ^ (i + 1) = x % 2 + 2 * (x / 2 % 2 ^ i) := by
      rw [pow_succ', Nat.mod_mul]
    have hshift : x >>> 1 = x / 2 := by
      rw [Nat.shiftRight_eq_div_pow, pow_one]
    rw [modExpLoop, hshift, hx, pow_add, pow_mul, Nat.mod_eq_of_lt hsq, Nat.mod_eq_of_lt hrc]
    by_cases hodd : x % 2 = 1
    · rw [if_pos ((one_land_ne_zero_iff x).2 hodd), ih _ _ _ hcp' (Nat.mod_lt _ hn0), hodd]
      rw [pow_one, ← mul_assoc, ← pow_two]
      conv_rhs => rw [Nat.mul_mod, Nat.pow_mod]
      conv_lhs => rw [Nat.mul_mod, Nat.pow_mod, Nat.mod_mod, Nat.mod_mod]
    · rw [if_neg (fun h => hodd ((one_land_ne_zero_iff x).1 h)), ih _ _ _ hcp' hres]
      have h0 : x % 2 = 0 := by omega
      rw [h0, pow_zero, one_mul, ← pow_two]
      conv_rhs => rw [Nat.mul_mod, Nat.pow_mod]
      conv_lhs => rw [Nat.mul_mod, Nat.pow_mod, Nat.mod_mod]

theorem modularExponention_spec (b x n : Nat) (hb : b < 2 ^ 32) (hx : x < 2 ^ 64)
    (hn2 : 2 ≤ n) (hn : n ≤ 2 ^ 32) : modularExponention b x n = b ^ x % n := by
  unfold modularExponention EXPSZ
  rw [modExpLoop_eq n hn 64 b 1 x hb (by omega), Nat.mod_eq_of_lt hx, one_mul]
  exact Nat.mod_eq_of_lt (lt_of_lt_of_le (Nat.mod_lt _ (by omega)) hn)

/-! ## The Euclidean algorithms -/

theorem gcdLoop_eq_gcd (a b : Nat) : gcdLoop a b = Nat.gcd a b := by
  induction b using Nat.strong_induction_on generalizing a with
  | _ b ih =>
    rw [gcdLoop]
    by_cases hb : b = 0
    · simp [hb]
    · rw [if_pos hb, ih (a % b) (Nat.mod_lt _ (Nat.pos_of_ne_zero hb)) b]
      rw [Nat.gcd_comm a b, Nat.gcd_rec b a, Nat.gcd_comm]

theorem GCD_eq_gcd (a b : Nat) : GCD a b = Nat.gcd a b := by
  unfold GCD
  split
  · rw [gcdLoop_eq_gcd, Nat.gcd_comm]
  · rw [gcdLoop_eq_gcd]

theorem bezoutLoop_spec (a b : Int) (ha : a < 2 ^ 31) (hb : b < 2 ^ 31) :
    ∀ (rb ra : Nat) (s t : OrderedPair) (σ : Int), (σ = 1 ∨ σ = -1) →
      0 < ra → (ra : Int) < 2 ^ 31 → (rb : Int) < 2 ^ 31 →
      (ra : Int) = a * s.a_ + b * t.a_ → (rb : Int) = a * s.b_ + b * t.b_ →
      0 ≤ σ * s.a_ → 0 ≤ -σ * s.b_ → 0 ≤ -σ * t.a_ → 0 ≤ σ * t.b_ →
      σ * s.a_ ≤ b → -σ * t.a_ ≤ a →
      (ra : Int) * (-σ * s.b_) + rb * (σ * s.a_) = b →
      (ra : Int) * (σ * t.b_) + rb * (-σ * t.a_) = a →
      ∃ x y, bezoutLoop ⟨ra, rb⟩ s t = .ok ⟨x, y⟩ ∧ a * x + b * y = (Nat.gcd ra rb : Nat) ∧
        (-b ≤ x ∧ x ≤ b) ∧ (-a ≤ y ∧ y ≤ a) := by
  intro rb
  induction rb using Nat.strong_induction_on with
  | _ rb ih =>
    intro ra s t σ hσ hra hra' hrb' e1 e2 hA hB hC hD hAb hCa k1 k2
    rw [bezoutLoop]
    by_cases hrb : rb = 0
    · subst hrb
      refine ⟨s.a_, t.a_, ?_, ?_, ?_, ?_⟩
      · rw [if_neg (by simp)]
      · rw [Nat.gcd_zero_right]
        exact e1.symm
      · rcases hσ with rfl | rfl <;> constructor <;> linarith
      · rcases hσ with rfl | rfl <;> constructor <;> linarith
    · have hrbpos : 0 < rb := Nat.pos_of_ne_zero hrb
      have hq : Int.tdiv (ra : Int) (rb : Int) = ((ra / rb : Nat) : Int) := by
        rw [Int.tdiv_eq_ediv (Int.natCast_nonneg _) (Int.natCast_nonneg _)]
        exact (Int.natCast_div ra rb).symm
      have hdm : (ra : Int) = (rb : Int) * ((ra / rb : Nat) : Int) + ((ra % rb : Nat) : Int) := by
        rw [Int.natCast_div, Int.natCast_mod]
        exact (Int.ediv_add_emod _ _).symm
      have hremlt : ((ra % rb : Nat) : Int) < rb :=
        Int.ofNat_lt.2 (Nat.mod_lt ra hrbpos)
      have hrem0 : (0 : Int) ≤ ((ra % rb : Nat) : Int) := Int.natCast_nonneg _
      have hq0 : (0 : Int) ≤ ((ra / rb : Nat) : Int) := Int.natCast_nonneg _
      have hrbI : (1 : Int) ≤ (rb : Int) := Int.ofNat_lt.2 hrbpos
      have hraI : (0 : Int) < (ra : Int) := Int.ofNat_lt.2 hra
      rw [if_pos (by simpa using hrb)]
      simp only [hq]
      generalize hQ : ((ra / rb : Nat) : Int) = q at *
      generalize hR : ((ra % rb : Nat) : Int) = rem at *
      have hrem : (ra : Int) - q * rb = rem := by linarith
      have hqrb : q * rb ≤ ra := by linarith only [hdm, hrem0]
      have hqle : q ≤ ra := by
        have h1 := mul_nonneg hq0 (sub_nonneg.2 hrbI)
        linarith only [h1, hqrb]
      have hqrb0 : 0 ≤ q * rb := mul_nonneg hq0 (by linarith)
      have hσ2 : σ * σ = 1 := by rcases hσ with rfl | rfl <;> norm_num
      have hB' : 0 ≤ σ * (s.a_ - q * s.b_) := by
        have h1 := mul_nonneg hq0 hB
        linarith only [h1, hA]
      have hD' : 0 ≤ -σ * (t.a_ - q * t.b_) := by
        have h1 := mul_nonneg hq0 hD
        linarith only [h1, hC]
      have k1' : (rb : Int) * (σ * (s.a_ - q * s.b_)) + rem * (-σ * s.b_) = b := by
        rw [← k1, hdm]; ring
      have k2' : (rb : Int) * (-σ * (t.a_ - q * t.b_)) + rem * (σ * t.b_) = a := by
        rw [← k2, hdm]; ring
      have bB' : σ * (s.a_ - q * s.b_) ≤ b := by
        have h1 := mul_nonneg hrem0 hB
        have h2 := mul_nonneg (sub_nonneg.2 hrbI) hB'
        linarith only [h1, h2, k1']
      have bD' : -σ * (t.a_ - q * t.b_) ≤ a := by
        have h1 := mul_nonneg hrem0 hD
        have h2 := mul_nonneg (sub_nonneg.2 hrbI) hD'
        linarith only [h1, h2, k2']
      have hqB : 0 ≤ q * (-σ * s.b_) := mul_nonneg hq0 hB
      have hqD : 0 ≤ q * (σ * t.b_) := mul_nonneg hq0 hD
      have hXb : q * (-σ * s.b_) ≤ b := by linarith
      have hYa : q * (σ * t.b_) ≤ a := by linarith
      have r1 : -b ≤ q * s.b_ ∧ q * s.b_ ≤ b := by
        rcases hσ with rfl | rfl <;> constructor <;> linarith
      have r2 : -b ≤ s.a_ - q * s.b_ ∧ s.a_ - q * s.b_ ≤ b := by
        rcases hσ with rfl | rfl <;> constructor <;> linarith
      have r3 : -a ≤ q * t.b_ ∧ q * t.b_ ≤ a := by
        rcases hσ with rfl | rfl <;> constructor <;> linarith
      have r4 : -a ≤ t.a_ - q * t.b_ ∧ t.a_ - q * t.b_ ≤ a := by
        rcases hσ with rfl | rfl <;> constructor <;> linarith
      have hrange : bezoutStepInRange q ⟨ra, rb⟩ s t :=
        ⟨⟨by linarith, by linarith⟩, ⟨by linarith, by linarith⟩,
          ⟨by linarith, by linarith⟩, ⟨by linarith, by linarith⟩,
          ⟨by linarith, by linarith⟩, ⟨by linarith, by linarith⟩,
          ⟨by linarith, by linarith⟩⟩
      rw [if_pos hrange, hrem, ← hR]
      have hmodlt : ra % rb < rb := Nat.mod_lt ra hrbpos
      have hraI1 : (1 : Int) ≤ (ra : Int) := hraI
      have bB : -σ * s.b_ ≤ b := by
        have h1 := mul_nonneg (sub_nonneg.2 hraI1) hB
        have h2 := mul_nonneg (Int.natCast_nonneg rb) hA
        linarith only [h1, h2, k1]
      have bD : σ * t.b_ ≤ a := by
        have h1 := mul_nonneg (sub_nonneg.2 hraI1) hD
        have h2 := mul_nonneg (Int.natCast_nonneg rb) hC
        linarith only [h1, h2, k2]
      obtain ⟨x, y, hxy, hg, hxb, hyb⟩ := ih (ra % rb) hmodlt rb ⟨s.b_, s.a_ - q * s.b_⟩
        ⟨t.b_, t.a_ - q * t.b_⟩ (-σ) (by rcases hσ with rfl | rfl <;> simp) hrbpos hrb'
        (by rw [hR]; linarith) e2 (by rw [hR, ← hrem, e1, e2]; ring)
        (by simpa using hB) (by simpa using hB') (by simpa using hD) (by simpa using hD')
        (by simpa using bB) (by simpa using bD)
        (by rw [hR]; simpa using k1') (by rw [hR]; simpa using k2')
      refine ⟨x, y, hxy, ?_, hxb, hyb⟩
      rw [hg, Nat.gcd_comm ra rb, Nat.gcd_rec rb ra, Nat.gcd_comm]

theorem bezout_spec (a b : Int) (ha : 0 < a) (ha' : a < 2 ^ 31) (hb : 0 < b) (hb' : b < 2 ^ 31) :
    ∃ x y, bezout a b = .ok ⟨x, y⟩ ∧ a * x + b * y = (Nat.gcd a.toNat b.toNat : Nat) ∧
      (-b ≤ x ∧ x ≤ b) ∧ (-a ≤ y ∧ y ≤ a) := by
  have hA : ((a.toNat : Nat) : Int) = a := Int.toNat_of_nonneg ha.le
  have hB : ((b.toNat : Nat) : Int) = b := Int.toNat_of_nonneg hb.le
  have h := bezoutLoop_spec a b ha' hb' b.toNat a.toNat ⟨1, 0⟩ ⟨0, 1⟩ 1 (Or.inl rfl)
    (by omega) (by rw [hA]; exact ha') (by rw [hB]; exact hb')
    (by rw [hA]; simp) (by rw [hB]; simp) (by simp) (by simp) (by simp) (by simp)
    (by simp; omega) (by simp; omega) (by rw [hA, hB]; simp) (by rw [hA, hB]; simp)
  rw [hA, hB] at h
  unfold bezout
  rw [if_neg (by omega)]
  exact h

/-- C3: `modularExponention` computes modular exponentiation. For all 32-bit unsigned `b`
and `x` and every modulus `n` with `2 ≤ n < 2 ^ 32`, the result is `b ^ x % n` in exact
arithmetic; in particular the exponent `0` gives `1 % n`. -/
theorem modularExponention_eq_pow_mod (b x n : Nat) (hb : b < 2 ^ 32) (hx : x < 2 ^ 32)
    (hn2 : 2 ≤ n) (hn : n < 2 ^ 32) :
    modularExponention b x n = b ^ x % n ∧ modularExponention b 0 n = 1 % n := by
  constructor
  · exact modularExponention_spec b x n hb (by omega) hn2 hn.le
  · rw [modularExponention_spec b 0 n hb (by omega) hn2 hn.le, pow_zero]

theorem modularExponention_eq_pow_mod_witness :
    modularExponention 7 5 12 = 7 ^ 5 % 12 ∧ modularExponention 7 0 12 = 1 % 12 :=
  modularExponention_eq_pow_mod 7 5 12 (by decide) (by decide) (by decide) (by decide)

/-- C4: the Bezout identity. For all `int` values `a` and `b` with `0 < a, b < 2 ^ 31`,
`bezout( a, b )` returns a pair `(x, y)` with `a * x + b * y = GCD( a, b )` in exact
signed arithmetic; that it returns at all says that no value computed in its loop leaves
the range of a 32-bit `int`. -/
theorem bezout_identity (a b : Int) (ha : 0 < a) (ha' : a < 2 ^ 31) (hb : 0 < b)
    (hb' : b < 2 ^ 31) :
    ∃ x y, bezout a b = .ok ⟨x, y⟩ ∧ a * x + b * y = (GCD (toUInt a) (toUInt b) : Nat) := by
  obtain ⟨x, y, h, hg, _, _⟩ := bezout_spec a b ha ha' hb hb'
  refine ⟨x, y, h, ?_⟩
  rw [hg, GCD_eq_gcd, toUInt_of_nonneg a ha.le (by linarith),
    toUInt_of_nonneg b hb.le (by linarith)]

theorem bezout_identity_witness :
    ∃ x y, bezout 240 46 = .ok ⟨x, y⟩ ∧ 240 * x + 46 * y = (GCD (toUInt 240) (toUInt 46) : Nat) :=
  bezout_identity 240 46 (by decide) (by decide) (by decide) (by decide)

/-- C9: `GCD` is symmetric and a common divisor. For all unsigned `a` and `b`,
`GCD( a, b ) = GCD( b, a )`, and `GCD( a, b )` divides both `a` and `b`. -/
theorem GCD_symmetric_and_divides (a b : Nat) :
    GCD a b = GCD b a ∧ GCD a b ∣ a ∧ GCD a b ∣ b := by
  rw [GCD_eq_gcd, GCD_eq_gcd, Nat.gcd_comm b a]
  exact ⟨rfl, Nat.gcd_dvd_left a b, Nat.gcd_dvd_right a b⟩

/-! ## Key derivation -/

theorem inverseLoop_nonneg (n fuel : Nat) (y : Int) (hy : 0 ≤ y) :
    inverseLoop n (fuel + 1) y = .ok y := by
  rw [inverseLoop, if_neg (by omega)]

theorem inverseLoop_neg (n fuel : Nat) (y : Int) (hn : n < 2 ^ 31) (hy : y < 0)
    (hy' : -(n : Int) ≤ y) : inverseLoop n (fuel + 2) y = .ok (y + n) := by
  have h1 : toInt ((toUInt y + n) % 2 ^ 32) = y + n := by
    have hu : toUInt y = (y + 2 ^ 32).toNat := by
      unfold toUInt
      congr 1
      omega
    have h2 : (toUInt y + n) % 2 ^ 32 = (y + n).toNat := by
      rw [hu]
      omega
    rw [h2, toInt_of_lt _ (by omega)]
    omega
  rw [inverseLoop, if_pos hy, h1]
  exact inverseLoop_nonneg n fuel _ (by omega)

theorem inverseModN_spec (fuel e n : Nat) (hn2 : 2 ≤ n) (hn : n < 2 ^ 31) (he1 : 1 ≤ e)
    (he : e < n) (hg : Nat.gcd e n = 1) (hf : 2 ≤ fuel) :
    ∃ r, inverseModN fuel e n = .ok r ∧ r < n ∧ (e * r) % n = 1 := by
  obtain ⟨x, y, hb, hid, _, hy1, hy2⟩ := bezout_spec (n : Int) (e : Int) (by omega) (by omega)
    (by omega) (by omega)
  rw [Int.toNat_natCast, Int.toNat_natCast, Nat.gcd_comm, hg] at hid
  obtain ⟨fuel, rfl⟩ : ∃ k, fuel = k + 2 := ⟨fuel - 2, by omega⟩
  -- the value left by the normalisation loop
  obtain ⟨r', hloop, hr0, hrn, hk⟩ : ∃ r' : Int, inverseLoop n (fuel + 2) y = .ok r' ∧
      0 ≤ r' ∧ r' ≤ n ∧ ∃ k : Int, (e : Int) * r' = 1 + n * k := by
    by_cases hneg : y < 0
    · exact ⟨y + n, inverseLoop_neg n fuel y hn hneg hy1, by omega, by omega,
        e - x, by linear_combination hid⟩
    · exact ⟨y, inverseLoop_nonneg n (fuel + 1) y (by omega), by omega, hy2,
        -x, by linear_combination hid⟩
  obtain ⟨k, hk⟩ := hk
  have hmodI : ((e : Int) * r') % n = 1 := by
    rw [hk, Int.add_mul_emod_self_left]
    exact Int.emod_eq_of_lt (by omega) (by omega)
  have hr'U : toUInt r' = r'.toNat := toUInt_of_nonneg r' hr0 (by omega)
  have hcast : ((r'.toNat : Nat) : Int) = r' := Int.toNat_of_nonneg hr0
  have hmodN : (e * r'.toNat) % n = 1 := by
    have : (((e * r'.toNat) % n : Nat) : Int) = 1 := by
      rw [Int.natCast_mod, Nat.cast_mul, hcast]
      exact hmodI
    exact_mod_cast this
  refine ⟨r'.toNat, ?_, ?_, hmodN⟩
  · unfold inverseModN
    rw [if_neg (by omega), toInt_of_lt n hn, toInt_of_lt e (by omega), hb]
    simp only [hloop, hr'U]
  · have hle : r'.toNat ≤ n := by omega
    rcases Nat.lt_or_eq_of_le hle with h | h
    · exact h
    · rw [h, Nat.mul_mod_left] at hmodN
      omega

theorem exponentLoop_spec (phi : Nat) (hphi : 2 ≤ phi) (hphi' : phi < 2 ^ 32) :
    ∀ (k e fuel : Nat), e + k = phi - 1 → 1 ≤ e → k < fuel →
      ∃ e', exponentLoop phi fuel e = .ok e' ∧ e ≤ e' ∧ e' ≤ phi - 1 ∧ Nat.gcd e' phi = 1 := by
  intro k
  induction k with
  | zero =>
    intro e fuel hk _ hf
    obtain ⟨fuel, rfl⟩ : ∃ j, fuel = j + 1 := ⟨fuel - 1, by omega⟩
    have he : e = phi - 1 := by omega
    have hco : Nat.gcd e phi = 1 := by
      have h1 : Nat.gcd (phi - 1) (phi - 1 + 1) = 1 := by simp
      rw [he]
      rwa [Nat.sub_add_cancel (by omega)] at h1
    refine ⟨e, ?_, le_refl _, by omega, hco⟩
    rw [exponentLoop, GCD_eq_gcd, if_neg (by simp [hco])]
  | succ k ih =>
    intro e fuel hk he1 hf
    obtain ⟨fuel, rfl⟩ : ∃ j, fuel = j + 1 := ⟨fuel - 1, by omega⟩
    rw [exponentLoop, GCD_eq_gcd]
    by_cases hco : Nat.gcd e phi = 1
    · exact ⟨e, by rw [if_neg (by simp [hco])], le_refl _, by omega, hco⟩
    · rw [if_pos hco, Nat.mod_eq_of_lt (by omega)]
      obtain ⟨e', h1, h2, h3, h4⟩ := ih (e + 1) fuel (by omega) (by omega) (by omega)
      exact ⟨e', h1, by omega, h3, h4⟩

theorem generateExponentFactors_spec (fuel : Nat) (e0 : Int) (phi : Nat) (hphi : 3 ≤ phi)
    (hphi' : phi < 2 ^ 31) (he0 : 2 ≤ e0) (he0' : e0 ≤ (phi : Int) - 1) (hf : phi ≤ fuel) :
    ∃ e d, generateExponentFactors fuel e0 phi = .ok (e, d) ∧
      e0 ≤ (e : Int) ∧ 1 < e ∧ e < phi ∧ Nat.gcd e phi = 1 ∧ d < phi ∧ (e * d) % phi = 1 := by
  have hU : toUInt e0 = e0.toNat := toUInt_of_nonneg e0 (by omega) (by omega)
  obtain ⟨e, h1, h2, h3, h4⟩ := exponentLoop_spec phi (by omega) (by omega)
    (phi - 1 - e0.toNat) e0.toNat fuel (by omega) (by omega) (by omega)
  obtain ⟨d, h5, h6, h7⟩ := inverseModN_spec fuel e phi (by omega) hphi' (by omega) (by omega)
    h4 (by omega)
  refine ⟨e, d, ?_, by omega, by omega, by omega, h4, h6, h7⟩
  unfold generateExponentFactors
  simp only [hU, h1, h5]

/-! ## Primality testing -/

theorem isPrime_eq_fermatCheck (n : Nat) (hn2 : 2 ≤ n) (hn : n < 2 ^ 32) :
    isPrime n = .ok (fermatCheck n) := by
  unfold isPrime fermatCheck
  rw [if_neg (by omega)]
  congr 1
  rw [Bool.eq_iff_iff, List.all_eq_true, List.all_eq_true]
  constructor
  · intro h b hb
    have hb' := h b hb
    rw [List.mem_range'_1] at hb
    rw [modularExponention_spec b n n (by omega) (by omega) hn2 hn.le, Nat.mod_mod] at hb'
    exact hb'
  · intro h b hb
    have hb' := h b hb
    rw [List.mem_range'_1] at hb
    rw [modularExponention_spec b n n (by omega) (by omega) hn2 hn.le, Nat.mod_mod]
    exact hb'

theorem fermat_little (p : Nat) (hp : p.Prime) (b : Nat) : b ^ p % p = b % p := by
  haveI : Fact p.Prime := ⟨hp⟩
  have h : ((b ^ p : Nat) : ZMod p) = (b : ZMod p) := by
    rw [Nat.cast_pow, ZMod.pow_card]
  exact (ZMod.natCast_eq_natCast_iff' _ _ _).1 h

theorem fermatCheck_of_prime (p : Nat) (hp : p.Prime) : fermatCheck p = true := by
  unfold fermatCheck
  rw [List.all_eq_true]
  intro b _
  exact decide_eq_true (fermat_little p hp b)

theorem mem_smallPrimes (p : Nat) (hp : p.Prime) (h : p ≤ 100) : p ∈ smallPrimes := by
  unfold smallPrimes
  interval_cases p <;> first | decide | (exfalso; revert hp; norm_num)

theorem trialPrime_sound (n : Nat) (hn2 : 2 ≤ n) (hn : n < 10201) (h : trialPrime n = true) :
    n.Prime := by
  by_contra hnp
  have hmf : n.minFac ∣ n := Nat.minFac_dvd n
  have hmp : n.minFac.Prime := Nat.minFac_prime (by omega)
  have hsq : n.minFac ^ 2 ≤ n := Nat.minFac_sq_le_self (by omega) hnp
  have hle : n.minFac ≤ 100 := by
    by_contra hgt
    have : 101 * 101 ≤ n.minFac ^ 2 := by nlinarith
    omega
  have hne : n.minFac ≠ n := fun e => hnp (e ▸ hmp)
  unfold trialPrime at h
  rw [List.all_eq_true] at h
  have := h n.minFac (mem_smallPrimes _ hmp hle)
  rw [Bool.or_eq_true, bne_iff_ne, beq_iff_eq] at this
  rcases this with h1 | h1
  · exact h1 (Nat.mod_eq_zero_of_dvd hmf)
  · exact hne h1

set_option maxRecDepth 100000 in
theorem rangeClassified_true : rangeClassified = true := by decide!

theorem isPrime_classification (n : Nat) (h1 : 1001 ≤ n) (h2 : n ≤ 10007)
    (h : isPrime n = .ok true) : n.Prime ∨ n ∈ pseudoprimes := by
  have hc := rangeClassified_true
  unfold rangeClassified at hc
  rw [List.all_eq_true] at hc
  have hn := hc n (by rw [List.mem_range'_1]; omega)
  rw [isPrime_eq_fermatCheck n (by omega) (by omega)] at h
  have hf : fermatCheck n = true := by injection h
  rw [hf] at hn
  simp only [Bool.not_true, Bool.or_false, Bool.or_eq_true, decide_eq_true_eq] at hn
  rcases hn with hn | hn
  · exact Or.inl (trialPrime_sound n (by omega) (by omega) hn)
  · exact Or.inr hn

/-! ## Prime sampling -/

theorem fermatCheck_10007 : fermatCheck 10007 = true := by decide!

theorem getPrimeLoop_spec : ∀ (fuel p0 : Nat), 1001 ≤ p0 → p0 ≤ 10007 → p0 % 2 = 1 →
    10007 - p0 < 2 * fuel →
    ∃ p, getPrimeLoop fuel (p0 : Int) = .ok p ∧ p0 ≤ p ∧ p ≤ 10007 ∧ p % 2 = 1 ∧
      isPrime p = .ok true := by
  intro fuel
  induction fuel with
  | zero => intro p0 _ _ _ h; omega
  | succ fuel ih =>
    intro p0 h1 h2 hodd hf
    have hU : toUInt (p0 : Int) = p0 := by
      rw [toUInt_of_nonneg _ (Int.natCast_nonneg _) (by omega), Int.toNat_natCast]
    have hP := isPrime_eq_fermatCheck p0 (by omega) (by omega)
    rw [getPrimeLoop, hU, hP]
    by_cases hc : fermatCheck p0 = true
    · rw [hc]
      exact ⟨p0, rfl, le_refl _, h2, hodd, by rw [hP, hc]⟩
    · have hc' : fermatCheck p0 = false := by simpa using hc
      have hne : p0 ≠ 10007 := by
        intro e
        rw [e, fermatCheck_10007] at hc'
        exact Bool.noConfusion hc'
      have hrange : inIntRange ((p0 : Int) + 2) := by
        unfold inIntRange
        omega
      rw [hc']
      simp only [if_pos hrange]
      obtain ⟨p, e1, e2, e3, e4, e5⟩ := ih (p0 + 2) (by omega) (by omega) (by omega) (by omega)
      refine ⟨p, ?_, by omega, e3, e4, e5⟩
      rw [← e1]
      rfl

theorem getPrime_spec (fuel : Nat) (r : Int) (h1 : 1001 ≤ r) (h2 : r ≤ 10001)
    (hf : 4504 ≤ fuel) :
    ∃ p, getPrime fuel r = .ok p ∧ r ≤ (p : Int) ∧ p ≤ 10007 ∧ isPrime p = .ok true := by
  unfold getPrime
  rw [Int.tmod_eq_emod (by omega) (by omega)]
  by_cases hev : r % 2 = 0
  · have hrange : inIntRange (r + 1) := by
      unfold inIntRange
      omega
    rw [if_pos hev, if_pos hrange]
    obtain ⟨p, e1, e2, e3, _, e5⟩ := getPrimeLoop_spec fuel (r + 1).toNat (by omega) (by omega)
      (by omega) (by omega)
    rw [Int.toNat_of_nonneg (by omega)] at e1
    exact ⟨p, e1, by omega, e3, e5⟩
  · rw [if_neg hev]
    obtain ⟨p, e1, e2, e3, _, e5⟩ := getPrimeLoop_spec fuel r.toNat (by omega) (by omega)
      (by omega) (by omega)
    rw [Int.toNat_of_nonneg (by omega)] at e1
    exact ⟨p, e1, by omega, e3, e5⟩

/-! ## Decimal strings -/

theorem foldl_digits (ds : List Nat) (a : Nat) :
    ds.foldl (fun acc c => acc * 10 + (c - 48)) a = a * 10 ^ ds.length + digitsVal ds := by
  unfold digitsVal
  induction ds generalizing a with
  | nil => simp
  | cons c cs ih =>
    rw [List.foldl_cons, List.foldl_cons, ih, ih (0 * 10 + (c - 48)), List.length_cons, pow_succ]
    ring

theorem digitsVal_append (xs ys : List Nat) :
    digitsVal (xs ++ ys) = digitsVal xs * 10 ^ ys.length + digitsVal ys := by
  unfold digitsVal
  rw [List.foldl_append, foldl_digits]
  rfl

theorem digitsVal_lt (ds : List Nat) (h : ∀ c ∈ ds, isdigit c = true) :
    digitsVal ds < 10 ^ ds.length := by
  induction ds using List.reverseRecOn with
  | nil => simp [digitsVal]
  | append_singleton cs c ih =>
    have hc : isdigit c = true := h c (by simp)
    have hcs := ih (fun x hx => h x (by simp [hx]))
    rw [digitsVal_append]
    simp only [List.length_append, List.length_singleton, pow_one]
    rw [pow_succ]
    have h1 : digitsVal [c] = c - 48 := by simp [digitsVal]
    rw [h1]
    simp only [isdigit, Bool.and_eq_true, decide_eq_true_eq] at hc
    omega

theorem digitsVal_replicate_zero (k : Nat) : digitsVal (List.replicate k 48) = 0 := by
  induction k with
  | zero => rfl
  | succ k ih =>
    rw [List.replicate_succ', digitsVal_append, ih]
    simp [digitsVal]

theorem decimalLoop_spec : ∀ (fuel v : Nat) (acc : List Nat), v < 10 ^ (fuel + 1) →
    ∃ ds, decimalLoop (fuel + 1) v acc = ds ++ acc ∧ (∀ c ∈ ds, isdigit c = true) ∧
      digitsVal ds = v ∧ 1 ≤ ds.length ∧ (∀ k, v < 10 ^ (k + 1) → ds.length ≤ k + 1) := by
  intro fuel
  induction fuel with
  | zero =>
    intro v acc hv
    refine ⟨[48 + v], ?_, ?_, ?_, ?_, ?_⟩
    · rw [decimalLoop, if_pos (by omega)]; rfl
    · intro c hc
      rw [List.mem_singleton] at hc
      simp only [isdigit, Bool.and_eq_true, decide_eq_true_eq]
      omega
    · simp [digitsVal]
    · simp
    · intro k _; simp
  | succ fuel ih =>
    intro v acc hv
    by_cases h10 : v < 10
    · refine ⟨[48 + v], ?_, ?_, ?_, ?_, ?_⟩
      · rw [decimalLoop, if_pos h10]; rfl
      · intro c hc
        rw [List.mem_singleton] at hc
        simp only [isdigit, Bool.and_eq_true, decide_eq_true_eq]
        omega
      · simp [digitsVal]
      · simp
      · intro k _; simp
    · have hv' : v / 10 < 10 ^ (fuel + 1) := by
        rw [Nat.div_lt_iff_lt_mul (by omega), ← pow_succ]
        exact hv
      obtain ⟨ds, h1, h2, h3, h4, h5⟩ := ih (v / 10) ((48 + v % 10) :: acc) hv'
      refine ⟨ds ++ [48 + v % 10], ?_, ?_, ?_, ?_, ?_⟩
      · rw [decimalLoop, if_neg h10, h1, List.append_assoc]; rfl
      · intro c hc
        rw [List.mem_append, List.mem_singleton] at hc
        rcases hc with hc | hc
        · exact h2 c hc
        · simp only [isdigit, Bool.and_eq_true, decide_eq_true_eq]
          omega
      · rw [digitsVal_append, h3]
        have : digitsVal [48 + v % 10] = v % 10 := by simp [digitsVal]
        rw [this, List.length_singleton, pow_one]
        omega
      · rw [List.length_append]; omega
      · intro k hk
        rw [List.length_append, List.length_singleton]
        cases k with
        | zero => omega
        | succ k =>
          have : v / 10 < 10 ^ (k + 1) := by
            rw [Nat.div_lt_iff_lt_mul (by omega), ← pow_succ]
            exact hk
          have := h5 k this
          omega

theorem to_string_spec (v : Int) (hv : 0 ≤ v) :
    (∀ c ∈ to_string v, isdigit c = true) ∧ digitsVal (to_string v) = v.toNat ∧
      1 ≤ (to_string v).length ∧ (∀ k, v < 10 ^ (k + 1) → (to_string v).length ≤ k + 1) := by
  unfold to_string
  rw [if_neg (by omega)]
  have hlt : v.natAbs < 10 ^ (v.natAbs + 1) :=
    lt_trans (Nat.lt_pow_self (by omega) _) (Nat.pow_lt_pow_right (by omega) (by omega))
  obtain ⟨ds, h1, h2, h3, h4, h5⟩ := decimalLoop_spec v.natAbs v.natAbs [] hlt
  rw [h1, List.append_nil]
  refine ⟨h2, by omega, h4, ?_⟩
  intro k hk
  apply h5 k
  have : ((v.natAbs : Nat) : Int) < ((10 ^ (k + 1) : Nat) : Int) := by
    rw [Int.natCast_natAbs, abs_of_nonneg hv]
    exact_mod_cast hk
  exact_mod_cast this

theorem padToSix_spec (s : List Nat) (h : ∀ c ∈ s, isdigit c = true) :
    (∀ c ∈ padToSix s, isdigit c = true) ∧ digitsVal (padToSix s) = digitsVal s ∧
      6 ≤ (padToSix s).length ∧ (s.length ≤ 6 → (padToSix s).length = 6) := by
  unfold padToSix
  refine ⟨?_, ?_, ?_, ?_⟩
  · intro c hc
    rw [List.mem_append] at hc
    rcases hc with hc | hc
    · rw [List.eq_of_mem_replicate hc]; rfl
    · exact h c hc
  · rw [digitsVal_append, digitsVal_replicate_zero, Nat.zero_mul, Nat.zero_add]
  · rw [List.length_append, List.length_replicate]; omega
  · intro hl
    rw [List.length_append, List.length_replicate]; omega

theorem stoi_digits (ds : List Nat) (h : ∀ c ∈ ds, isdigit c = true) (hne : ds ≠ [])
    (hlen : ds.length ≤ 9) : stoi ds = .ok (digitsVal ds : Nat) := by
  obtain ⟨c, cs, rfl⟩ := List.exists_cons_of_ne_nil hne
  have hc : isdigit c = true := h c (by simp)
  have hc' : 48 ≤ c ∧ c ≤ 57 := by
    simpa only [isdigit, Bool.and_eq_true, decide_eq_true_eq] using hc
  have hsp : isspace c = false := by
    simp only [isspace, Bool.or_eq_false_iff, beq_eq_false_iff_ne, Bool.and_eq_false_iff,
      decide_eq_false_iff_not]
    omega
  have hdrop : List.dropWhile isspace (c :: cs) = c :: cs := by
    rw [List.dropWhile_cons_of_neg (by simp [hsp])]
  have htake : List.takeWhile isdigit (c :: cs) = c :: cs :=
    List.takeWhile_eq_self_iff.2 h
  have h45 : ((some c : Option Nat) == some 45) = false := by
    rw [beq_eq_false_iff_ne]
    intro e
    injection e with e
    omega
  have h43 : ((some c : Option Nat) == some 43) = false := by
    rw [beq_eq_false_iff_ne]
    intro e
    injection e with e
    omega
  have hval := digitsVal_lt (c :: cs) h
  have hpow : 10 ^ (c :: cs).length ≤ 10 ^ 9 := Nat.pow_le_pow_right (by omega) hlen
  have hrange : inIntRange ((digitsVal (c :: cs) : Nat) : Int) := by
    unfold inIntRange
    constructor
    · have : (0 : Int) ≤ ((digitsVal (c :: cs) : Nat) : Int) := Int.natCast_nonneg _
      omega
    · have : digitsVal (c :: cs) < 10 ^ 9 := lt_of_lt_of_le hval hpow
      omega
  unfold stoi
  simp only [hdrop, List.head?_cons, h45, h43, Bool.or_self, Bool.false_eq_true, if_false,
    htake, reduceCtorEq]
  exact if_pos hrange

/-! ## Universal exponents -/

theorem universalExponent_prime (p : Nat) (hp : p.Prime) : UniversalExponent p (p - 1) := by
  intro a j hj
  obtain ⟨k, rfl⟩ := hj
  haveI : Fact p.Prime := ⟨hp⟩
  have h : ((a ^ ((p - 1) * k + 1) : Nat) : ZMod p) = (a : ZMod p) := by
    rw [Nat.cast_pow]
    by_cases ha : (a : ZMod p) = 0
    · rw [ha, zero_pow (by omega)]
    · rw [pow_succ, pow_mul, ZMod.pow_card_sub_one_eq_one ha, one_pow, one_mul]
  exact (ZMod.natCast_eq_natCast_iff' _ _ _).1 h

theorem universalExponent_of_dvd (m L L' : Nat) (h : UniversalExponent m L) (hd : L ∣ L') :
    UniversalExponent m L' :=
  fun a j hj => h a j (dvd_trans hd hj)

theorem universalExponent_mul (m n L : Nat) (hm : UniversalExponent m L)
    (hn : UniversalExponent n L) (hco : Nat.Coprime m n) : UniversalExponent (m * n) L := by
  intro a j hj
  have h1 : a ^ (j + 1) ≡ a [MOD m] := hm a j hj
  have h2 : a ^ (j + 1) ≡ a [MOD n] := hn a j hj
  exact (Nat.modEq_and_modEq_iff_modEq_mul hco).1 ⟨h1, h2⟩

theorem universalExponent_three (r1 r2 r3 : Nat) (h1 : r1.Prime) (h2 : r2.Prime) (h3 : r3.Prime)
    (h12 : Nat.Coprime r1 r2) (h123 : Nat.Coprime (r1 * r2) r3)
    (d1 : (r1 - 1) ∣ (r1 * r2 * r3 - 1)) (d2 : (r2 - 1) ∣ (r1 * r2 * r3 - 1))
    (d3 : (r3 - 1) ∣ (r1 * r2 * r3 - 1)) :
    UniversalExponent (r1 * r2 * r3) (r1 * r2 * r3 - 1) :=
  universalExponent_mul _ _ _
    (universalExponent_mul _ _ _
      (universalExponent_of_dvd _ _ _ (universalExponent_prime r1 h1) d1)
      (universalExponent_of_dvd _ _ _ (universalExponent_prime r2 h2) d2) h12)
    (universalExponent_of_dvd _ _ _ (universalExponent_prime r3 h3) d3) h123

theorem universalExponent_pseudoprime (m : Nat) (hm : m ∈ pseudoprimes) :
    UniversalExponent m (m - 1) := by
  unfold pseudoprimes at hm
  simp only [List.mem_cons, List.mem_singleton, List.not_mem_nil, or_false] at hm
  rcases hm with rfl | rfl | rfl | rfl | rfl | rfl
  · exact universalExponent_three 5 13 17 (by norm_num) (by norm_num) (by norm_num)
      (by decide) (by decide) (by decide) (by decide) (by decide)
  · exact universalExponent_three 7 13 19 (by norm_num) (by norm_num) (by norm_num)
      (by decide) (by decide) (by decide) (by decide) (by decide)
  · exact universalExponent_three 5 17 29 (by norm_num) (by norm_num) (by norm_num)
      (by decide) (by decide) (by decide) (by decide) (by decide)
  · exact universalExponent_three 7 13 31 (by norm_num) (by norm_num) (by norm_num)
      (by decide) (by decide) (by decide) (by decide) (by decide)
  · exact universalExponent_three 7 23 41 (by norm_num) (by norm_num) (by norm_num)
      (by decide) (by decide) (by decide) (by decide) (by decide)
  · exact universalExponent_three 7 19 67 (by norm_num) (by norm_num) (by norm_num)
      (by decide) (by decide) (by decide) (by decide) (by decide)

theorem rsa_identity (p q e d : Nat) (hp : UniversalExponent p (p - 1))
    (hq : UniversalExponent q (q - 1)) (hco : Nat.Coprime p q)
    (hed : (e * d) % ((p - 1) * (q - 1)) = 1) (a : Nat) :
    a ^ (e * d) % (p * q) = a % (p * q) := by
  have hU : UniversalExponent (p * q) ((p - 1) * (q - 1)) :=
    universalExponent_mul _ _ _
      (universalExponent_of_dvd _ _ _ hp (Dvd.intro _ rfl))
      (universalExponent_of_dvd _ _ _ hq (Dvd.intro_left _ rfl)) hco
  have hsplit : e * d = (p - 1) * (q - 1) * (e * d / ((p - 1) * (q - 1))) + 1 := by
    have := Nat.div_add_mod (e * d) ((p - 1) * (q - 1))
    omega
  rw [hsplit]
  exact hU a _ (Dvd.intro _ rfl)

/-! ## The message codec -/

theorem modExpLoop_bound (n : Nat) (hn : 1 ≤ n) :
    ∀ (i cp res x : Nat), modExpLoop n i cp res x = res ∨ modExpLoop n i cp res x < n := by
  intro i
  induction i with
  | zero => intro cp res x; exact Or.inl rfl
  | succ i ih =>
    intro cp res x
    rw [modExpLoop]
    split
    · rcases ih (cp * cp % 2 ^ 64 % n) (res * cp % 2 ^ 64 % n) (x >>> 1) with h | h
      · right; rw [h]; exact Nat.mod_lt _ hn
      · exact Or.inr h
    · exact ih _ _ _

theorem modularExponention_lt (b x n : Nat) (hn : 1 ≤ n) (hn' : n < 2 ^ 31) :
    modularExponention b x n < 2 ^ 31 := by
  unfold modularExponention
  have h := modExpLoop_bound n hn EXPSZ b 1 x
  have hle := Nat.mod_le (modExpLoop n EXPSZ b 1 x) (2 ^ 32)
  omega

theorem substr_ok (s : List Nat) (pos len : Nat) (h : pos ≤ s.length) :
    substr s pos len = .ok ((s.drop pos).take len) := by
  unfold substr
  rw [if_neg (by omega)]

theorem decryptBlock_eq (c : Int) (d n m : Nat) (hm : modularExponention (toUInt c) d n = m)
    (hm' : m < 2 ^ 31) :
    decryptBlock c d n = .ok
      [intToChar (digitsVal ((padToSix (to_string m)).take 3) : Nat),
       intToChar (digitsVal (((padToSix (to_string m)).drop 3).take 3) : Nat)] := by
  obtain ⟨hd, _, _, _⟩ := to_string_spec (m : Int) (Int.natCast_nonneg m)
  obtain ⟨hpd, _, hplen, _⟩ := padToSix_spec _ hd
  have hs1 := substr_ok (padToSix (to_string m)) 0 3 (by omega)
  have hs2 := substr_ok (padToSix (to_string m)) 3 3 (by omega)
  rw [List.drop_zero] at hs1
  have hst1 := stoi_digits ((padToSix (to_string m)).take 3)
    (fun c hc => hpd c (List.mem_of_mem_take hc))
    (List.ne_nil_of_length_pos (by rw [List.length_take]; omega))
    (by rw [List.length_take]; omega)
  have hst2 := stoi_digits (((padToSix (to_string m)).drop 3).take 3)
    (fun c hc => hpd c (List.mem_of_mem_drop (List.mem_of_mem_take hc)))
    (List.ne_nil_of_length_pos (by rw [List.length_take, List.length_drop]; omega))
    (by rw [List.length_take]; omega)
  unfold decryptBlock
  simp only [hm, toInt_of_lt m hm', hs1, hs2, hst1, hst2, bind, Except.bind, pure, Except.pure]

theorem decryptLoop_length (d n : Nat) (hn : 1 ≤ n) (hn' : n < 2 ^ 31) :
    ∀ (cs : List Int) (acc : List Nat),
      ∃ s, decryptLoop d n cs acc = .ok s ∧ s.length = acc.length + 2 * cs.length := by
  intro cs
  induction cs with
  | nil => intro acc; exact ⟨acc, rfl, by simp⟩
  | cons c cs ih =>
    intro acc
    have hb := decryptBlock_eq c d n _ rfl (modularExponention_lt (toUInt c) d n hn hn')
    obtain ⟨s, h1, h2⟩ := ih (acc ++
      [intToChar (digitsVal ((padToSix (to_string
          (modularExponention (toUInt c) d n))).take 3) : Nat),
       intToChar (digitsVal (((padToSix (to_string
          (modularExponention (toUInt c) d n))).drop 3).take 3) : Nat)])
    refine ⟨s, ?_, ?_⟩
    · rw [decryptLoop]
      simp only [hb, bind, Except.bind]
      exact h1
    · rw [h2]
      simp only [List.length_append, List.length_cons, List.length_nil]
      omega

/-- C10: decryption never fails and has a fixed shape. For every ciphertext, every
exponent `d` (correct or not) and every modulus `n` with `1 ≤ n < 2 ^ 31`,
`decrypt( ciphertext, d, n )` returns normally (no `substr` out of range, no failed
`stoi`) a string of exactly `2 * length(ciphertext)` characters. -/
theorem decrypt_shape (ciphertext : List Int) (d n : Nat) (hn : 1 ≤ n) (hn' : n < 2 ^ 31) :
    ∃ s, decrypt ciphertext d n = .ok s ∧ s.length = 2 * ciphertext.length := by
  obtain ⟨s, h1, h2⟩ := decryptLoop_length d n hn hn' ciphertext []
  exact ⟨s, h1, by simpa using h2⟩

theorem decrypt_shape_witness :
    ∃ s, decrypt [1515525, -7, 0] 12345 2723825 = .ok s ∧
      s.length = 2 * ([1515525, -7, 0] : List Int).length :=
  decrypt_shape [1515525, -7, 0] 12345 2723825 (by decide) (by decide)

/-! ## Encryption followed by decryption -/

theorem encryptPairs_eq (input : List Nat) (e n : Nat) :
    ∀ (m : Nat) (acc : List Int),
      encryptPairs input e n (2 * (m : Int) - 1) acc =
        (-1, (List.range m).map
          (fun k => encryptedBlock (input.getD (2 * k) 0) (input.getD (2 * k + 1) 0) e n)
            ++ acc) := by
  intro m
  induction m with
  | zero =>
    intro acc
    rw [encryptPairs, if_neg (by simp)]
    simp
  | succ m ih =>
    intro acc
    rw [encryptPairs, if_pos (by push_cast; omega)]
    have h1 : (2 * ((m + 1 : Nat) : Int) - 1 - 1).toNat = 2 * m := by push_cast; omega
    have h2 : (2 * ((m + 1 : Nat) : Int) - 1).toNat = 2 * m + 1 := by push_cast; omega
    have h3 : 2 * ((m + 1 : Nat) : Int) - 1 - 2 = 2 * (m : Int) - 1 := by push_cast; omega
    simp only [h1, h2, h3]
    rw [ih, List.range_succ, List.map_append, List.map_singleton, List.append_assoc]
    rfl

theorem encryptSingles_neg (input : List Nat) (e n : Nat) (acc : List Int) :
    encryptSingles input e n (-1) acc = acc := by
  rw [encryptSingles, if_neg (by decide)]

theorem encrypt_even (input : List Nat) (e n m : Nat) (h : input.length = 2 * m) :
    encrypt input e n = (List.range m).map
      (fun k => encryptedBlock (input.getD (2 * k) 0) (input.getD (2 * k + 1) 0) e n) := by
  unfold encrypt
  have hi : ((input.length : Nat) : Int) - 1 = 2 * (m : Int) - 1 := by rw [h]; push_cast; rfl
  rw [hi, encryptPairs_eq]
  simp only [List.append_nil]
  exact encryptSingles_neg _ _ _ _

theorem charToInt_of_lt (c : Nat) (h : c < 128) : charToInt c = (c : Int) := by
  unfold charToInt
  have h1 : c % 256 = c := Nat.mod_eq_of_lt (by omega)
  rw [h1, if_pos h]

theorem intToChar_of_lt (c : Nat) (h : c < 256) : intToChar (c : Int) = c := by
  unfold intToChar
  omega

theorem padded_split (v : Nat) (hv : v < 10 ^ 6) :
    digitsVal ((padToSix (to_string (v : Int))).take 3) = v / 1000 ∧
      digitsVal (((padToSix (to_string (v : Int))).drop 3).take 3) = v % 1000 := by
  obtain ⟨hd, hval, _, hlen⟩ := to_string_spec (v : Int) (Int.natCast_nonneg v)
  obtain ⟨hpd, hpval, _, hplen⟩ := padToSix_spec _ hd
  have hl6 : (padToSix (to_string (v : Int))).length = 6 :=
    hplen (hlen 5 (by exact_mod_cast hv))
  rw [hval, Int.toNat_natCast] at hpval
  generalize padToSix (to_string (v : Int)) = s at *
  have hdrop : (s.drop 3).take 3 = s.drop 3 :=
    List.take_of_length_le (by rw [List.length_drop]; omega)
  have hsplit : digitsVal s = digitsVal (s.take 3) * 10 ^ (s.drop 3).length
      + digitsVal (s.drop 3) := by
    rw [← digitsVal_append, List.take_append_drop]
  have hlt : digitsVal (s.drop 3) < 10 ^ (s.drop 3).length :=
    digitsVal_lt _ (fun c hc => hpd c (List.mem_of_mem_drop hc))
  have hl3 : (s.drop 3).length = 3 := by rw [List.length_drop]; omega
  rw [hl3] at hsplit hlt
  rw [hdrop]
  omega

theorem decryptBlock_encryptedBlock (u l e d n : Nat) (hu : u ≤ 127) (hl : l ≤ 127)
    (hn : 255255 < n) (hn' : n < 2 ^ 31) (he : e < 2 ^ 32) (hd : d < 2 ^ 32)
    (hid : ∀ a, a ^ (e * d) % n = a % n) :
    decryptBlock (encryptedBlock u l e n) d n = .ok [u, l] := by
  have hdata : toUInt (charToInt u * 1000 + charToInt l) = u * 1000 + l := by
    rw [charToInt_of_lt u (by omega), charToInt_of_lt l (by omega), toUInt_of_nonneg _
      (by omega) (by omega)]
    omega
  have hc : modularExponention (u * 1000 + l) e n = (u * 1000 + l) ^ e % n :=
    modularExponention_spec _ _ _ (by omega) (by omega) (by omega) (by omega)
  have hclt : (u * 1000 + l) ^ e % n < n := Nat.mod_lt _ (by omega)
  have hblock : encryptedBlock u l e n = (((u * 1000 + l) ^ e % n : Nat) : Int) := by
    unfold encryptedBlock
    rw [hdata, hc, toInt_of_lt _ (by omega)]
  have hback : toUInt (encryptedBlock u l e n) = (u * 1000 + l) ^ e % n := by
    rw [hblock, toUInt_of_nonneg _ (Int.natCast_nonneg _) (by omega), Int.toNat_natCast]
  have hm : modularExponention (toUInt (encryptedBlock u l e n)) d n = u * 1000 + l := by
    rw [hback, modularExponention_spec _ _ _ (by omega) (by omega) (by omega) (by omega),
      ← Nat.pow_mod, ← pow_mul, hid]
    exact Nat.mod_eq_of_lt (by omega)
  rw [decryptBlock_eq _ d n (u * 1000 + l) hm (by omega)]
  obtain ⟨h1, h2⟩ := padded_split (u * 1000 + l) (by omega)
  have h1' : digitsVal ((padToSix (to_string ((u * 1000 + l : Nat) : Int))).take 3) = u := by
    omega
  have h2' : digitsVal (((padToSix (to_string ((u * 1000 + l : Nat) : Int))).drop 3).take 3)
      = l := by omega
  rw [h1', h2', intToChar_of_lt u (by omega), intToChar_of_lt l (by omega)]

theorem decryptLoop_blocks (e d n : Nat) (hn : 255255 < n) (hn' : n < 2 ^ 31) (he : e < 2 ^ 32)
    (hd : d < 2 ^ 32) (hid : ∀ a, a ^ (e * d) % n = a % n) :
    ∀ (m : Nat) (S : List Nat) (acc : List Nat), S.length = 2 * m → (∀ c ∈ S, c ≤ 127) →
      decryptLoop d n ((List.range m).map
        (fun k => encryptedBlock (S.getD (2 * k) 0) (S.getD (2 * k + 1) 0) e n)) acc =
        .ok (acc ++ S) := by
  intro m
  induction m with
  | zero =>
    intro S acc hS _
    have : S = [] := List.length_eq_zero.1 (by omega)
    subst this
    simp [decryptLoop]
  | succ m ih =>
    intro S acc hS hc
    match S, hS, hc with
    | u :: l :: rest, hS, hc =>
      have hu : u ≤ 127 := hc u (by simp)
      have hl : l ≤ 127 := hc l (by simp)
      have hrest : rest.length = 2 * m := by
        simp only [List.length_cons] at hS
        omega
      have hmap : (List.range (m + 1)).map
          (fun k => encryptedBlock ((u :: l :: rest).getD (2 * k) 0)
            ((u :: l :: rest).getD (2 * k + 1) 0) e n) =
          encryptedBlock u l e n :: (List.range m).map
            (fun k => encryptedBlock (rest.getD (2 * k) 0) (rest.getD (2 * k + 1) 0) e n) := by
        rw [List.range_succ_eq_map, List.map_cons, List.map_map]
        congr 1
      rw [hmap, decryptLoop]
      simp only [decryptBlock_encryptedBlock u l e d n hu hl hn hn' he hd hid, bind, Except.bind]
      rw [ih rest (acc ++ [u, l]) hrest (fun c hc' => hc c (by simp [hc'])),
        List.append_assoc]
      rfl

theorem roundtrip_even (e d n : Nat) (hn : 255255 < n) (hn' : n < 2 ^ 31) (he : e < 2 ^ 32)
    (hd : d < 2 ^ 32) (hid : ∀ a, a ^ (e * d) % n = a % n) (S : List Nat)
    (hS : S.length % 2 = 0) (hc : ∀ c ∈ S, c ≤ 127) :
    decrypt (encrypt S e n) d n = .ok S := by
  have hlen : S.length = 2 * (S.length / 2) := by omega
  rw [encrypt_even S e n _ hlen]
  unfold decrypt
  rw [decryptLoop_blocks e d n hn hn' he hd hid _ S [] hlen hc, List.nil_append]

/-! ## Round trip -/

/-- C1: round trip with the matching key. For all distinct primes `p` and `q` with
`255255 < p * q < 2 ^ 31`, `n = p * q`, all 32-bit `e` and `d` with
`(e * d) mod ((p - 1) * (q - 1)) = 1`, and every even-length string `S` whose characters
all have codes in `0 .. 127`, `decrypt( encrypt( S, e, n ), d, n )` returns `S` byte for
byte. -/
theorem roundtrip_matching_key (p q e d : Nat) (hp : p.Prime) (hq : q.Prime) (hpq : p ≠ q)
    (hn : 255255 < p * q) (hn' : p * q < 2 ^ 31) (he : e < 2 ^ 32) (hd : d < 2 ^ 32)
    (hed : (e * d) % ((p - 1) * (q - 1)) = 1) (S : List Nat) (hS : S.length % 2 = 0)
    (hc : ∀ c ∈ S, c ≤ 127) :
    decrypt (encrypt S e (p * q)) d (p * q) = .ok S :=
  roundtrip_even e d (p * q) hn hn' he hd
    (rsa_identity p q e d (universalExponent_prime p hp) (universalExponent_prime q hq)
      ((Nat.coprime_primes hp hq).2 hpq) hed) S hS hc

theorem roundtrip_matching_key_witness :
    decrypt (encrypt [72, 105, 33, 33] 5 (1009 * 1013)) 816077 (1009 * 1013) =
      .ok [72, 105, 33, 33] :=
  roundtrip_matching_key 1009 1013 5 816077 (by norm_num) (by norm_num) (by decide)
    (by decide) (by decide) (by decide) (by decide) (by decide) [72, 105, 33, 33]
    (by decide) (by decide)

/-- C2, as stated, fails. The draws `1105` and `2465` are returned by `getPrime`
unchanged (both are Carmichael numbers), they are distinct but share the factors `5`
and `17`, and with the key pair derived from them the message "Hi!!" does not come
back. With the genuine primes `1009` and `1013` a character of code `200` does not come
back either, since it is read as `-56`. -/
theorem roundtrip_fresh_keypair_fails :
    (getPrime (2 ^ 27) 1105 = .ok 1105 ∧ getPrime (2 ^ 27) 2465 = .ok 2465 ∧
      generateExponentFactors (2 ^ 27) 5 (getEulerPhi 1105 2465) = .ok (5, 2176205) ∧
      mainSetUp (2 ^ 27) 1105 2465 [] 5 = .ok ⟨1105 * 2465 % 2 ^ 32, 5, 2176205⟩ ∧
      (1105 : Nat) ≠ 2465 ∧ Nat.gcd 1105 2465 = 85 ∧
      decrypt (encrypt [72, 105, 33, 33] 5 (1105 * 2465 % 2 ^ 32)) 2176205
        (1105 * 2465 % 2 ^ 32) = .ok [10, 7, 33, 137] ∧
      decrypt (encrypt [72, 105, 33, 33] 5 (1105 * 2465 % 2 ^ 32)) 2176205
        (1105 * 2465 % 2 ^ 32) ≠ .ok [72, 105, 33, 33]) ∧
    (getPrime (2 ^ 27) 1009 = .ok 1009 ∧ getPrime (2 ^ 27) 1013 = .ok 1013 ∧
      generateExponentFactors (2 ^ 27) 5 (getEulerPhi 1009 1013) = .ok (5, 816077) ∧
      mainSetUp (2 ^ 27) 1009 1013 [] 5 = .ok ⟨1009 * 1013 % 2 ^ 32, 5, 816077⟩ ∧
      decrypt (encrypt [200, 65] 5 (1009 * 1013 % 2 ^ 32)) 816077
        (1009 * 1013 % 2 ^ 32) ≠ .ok [200, 65]) := by
  decide!

theorem universalExponent_of_isPrime (p : Nat) (h1 : 1001 ≤ p) (h2 : p ≤ 10007)
    (h : isPrime p = .ok true) : UniversalExponent p (p - 1) := by
  rcases isPrime_classification p h1 h2 h with hp | hp
  · exact universalExponent_prime p hp
  · exact universalExponent_pseudoprime p hp

theorem getEulerPhi_eq (p q : Nat) (hp : 1001 ≤ p) (hp' : p ≤ 10007) (hq : 1001 ≤ q)
    (hq' : q ≤ 10007) :
    getEulerPhi p q = (p - 1) * (q - 1) ∧ 3 ≤ (p - 1) * (q - 1) ∧ (p - 1) * (q - 1) < 2 ^ 27 := by
  have h1 : (p + (2 ^ 32 - 1)) % 2 ^ 32 = p - 1 := by omega
  have h2 : (q + (2 ^ 32 - 1)) % 2 ^ 32 = q - 1 := by omega
  have hlo : 1000 * 1000 ≤ (p - 1) * (q - 1) := Nat.mul_le_mul (by omega) (by omega)
  have hhi : (p - 1) * (q - 1) ≤ 10006 * 10006 := Nat.mul_le_mul (by omega) (by omega)
  unfold getEulerPhi
  rw [h1, h2, Nat.mod_eq_of_lt (by omega)]
  exact ⟨rfl, by omega, by omega⟩

theorem resampleLoop_of_ne (fuel p q : Nat) (draws : List Int) (h : q ≠ p) :
    resampleLoop fuel p q draws = .ok q := by
  cases draws with
  | nil => rw [resampleLoop, if_neg h]
  | cons r rs => rw [resampleLoop, if_neg h]

/-- C2, amended: round trip for a freshly generated keypair. For every pair of random
draws `r1`, `r2` in `[1001, 10001]` whose `getPrime` results `p` and `q` are coprime,
every exponent draw `e0` in `[2, phi - 1]` with `phi = getEulerPhi( p, q )`, the keypair
`n = p * q`, `(e, d) = generateExponentFactors( phi )` started from `e0` exists, and for
every even-length string `S` whose characters have codes in `0 .. 127`,
`decrypt( encrypt( S, e, n ), d, n )` returns `S`; `n`, `e`, `d` are the key pair that
`main` sets up from these draws. -/
theorem roundtrip_fresh_keypair (fuel : Nat) (r1 r2 e0 : Int) (draws : List Int) (p q : Nat)
    (S : List Nat)
    (hr1 : 1001 ≤ r1) (hr1' : r1 ≤ 10001) (hr2 : 1001 ≤ r2) (hr2' : r2 ≤ 10001)
    (hf : 2 ^ 27 ≤ fuel) (hp : getPrime fuel r1 = .ok p) (hq : getPrime fuel r2 = .ok q)
    (hco : Nat.Coprime p q) (he0 : 2 ≤ e0) (he0' : e0 ≤ (getEulerPhi p q : Int) - 1)
    (hS : S.length % 2 = 0) (hc : ∀ c ∈ S, c ≤ 127) :
    ∃ e d, generateExponentFactors fuel e0 (getEulerPhi p q) = .ok (e, d) ∧
      mainSetUp fuel r1 r2 draws e0 = .ok ⟨p * q % 2 ^ 32, e, d⟩ ∧
      decrypt (encrypt S e (p * q % 2 ^ 32)) d (p * q % 2 ^ 32) = .ok S := by
  obtain ⟨p', hp1, hp2, hp3, hp4⟩ := getPrime_spec fuel r1 hr1 hr1' (by omega)
  obtain ⟨q', hq1, hq2, hq3, hq4⟩ := getPrime_spec fuel r2 hr2 hr2' (by omega)
  have hset : ∀ e d, generateExponentFactors fuel e0 (getEulerPhi p q) = .ok (e, d) →
      mainSetUp fuel r1 r2 draws e0 = .ok ⟨p * q % 2 ^ 32, e, d⟩ := by
    intro e d hg
    have hne : q ≠ p := by
      rw [hp] at hp1
      injection hp1 with hp1
      intro e
      rw [e, Nat.Coprime, Nat.gcd_self] at hco
      omega
    unfold mainSetUp
    simp only [hp, hq, resampleLoop_of_ne fuel p q draws hne, hg]
  rw [hp] at hp1
  rw [hq] at hq1
  injection hp1 with hp1
  injection hq1 with hq1
  subst hp1
  subst hq1
  have hpl : 1001 ≤ p := by omega
  have hql : 1001 ≤ q := by omega
  obtain ⟨hphi, hphi3, hphi'⟩ := getEulerPhi_eq p q hpl hp3 hql hq3
  rw [hphi] at he0' hset ⊢
  obtain ⟨e, d, hg, _, _, he, _, hd, hed⟩ := generateExponentFactors_spec fuel e0
    ((p - 1) * (q - 1)) hphi3 (by omega) he0 he0' (by omega)
  have hlo : 1001 * 1001 ≤ p * q := Nat.mul_le_mul hpl hql
  have hhi : p * q ≤ 10007 * 10007 := Nat.mul_le_mul hp3 hq3
  refine ⟨e, d, hg, hset e d hg, ?_⟩
  have hn : p * q % 2 ^ 32 = p * q := Nat.mod_eq_of_lt (by omega)
  rw [hn]
  exact roundtrip_even e d (p * q) (by omega) (by omega) (by omega) (by omega)
    (rsa_identity p q e d (universalExponent_of_isPrime p hpl hp3 hp4)
      (universalExponent_of_isPrime q hql hq3 hq4) hco hed) S hS hc

theorem roundtrip_fresh_keypair_witness :
    ∃ e d, generateExponentFactors (2 ^ 27) 5 (getEulerPhi 1105 1009) = .ok (e, d) ∧
      mainSetUp (2 ^ 27) 1105 1009 [] 5 = .ok ⟨1105 * 1009 % 2 ^ 32, e, d⟩ ∧
      decrypt (encrypt [72, 105, 33, 33] e (1105 * 1009 % 2 ^ 32)) d (1105 * 1009 % 2 ^ 32) =
        .ok [72, 105, 33, 33] :=
  roundtrip_fresh_keypair (2 ^ 27) 1105 1009 5 [] 1105 1009 [72, 105, 33, 33] (by decide)
    (by decide) (by decide) (by decide) (by decide) (by decide!) (by decide!) (by decide)
    (by decide) (by decide) (by decide) (by decide)

/-! ## Key pairs and primality -/

/-- C5: the keypair invariant. For every `phi` with `3 ≤ phi < 2 ^ 31` and every initial
candidate `e0` in `[2, phi - 1]`, `generateExponentFactors` (with fuel for `phi`
iterations) produces a pair `(e, d)` with `(e * d) mod phi = 1`, the product being taken
in exact arithmetic. -/
theorem keypair_invariant (fuel : Nat) (e0 : Int) (phi : Nat) (hphi : 3 ≤ phi)
    (hphi' : phi < 2 ^ 31) (he0 : 2 ≤ e0) (he0' : e0 ≤ (phi : Int) - 1) (hf : phi ≤ fuel) :
    ∃ e d, generateExponentFactors fuel e0 phi = .ok (e, d) ∧ (e * d) % phi = 1 := by
  obtain ⟨e, d, h, _, _, _, _, _, hed⟩ :=
    generateExponentFactors_spec fuel e0 phi hphi hphi' he0 he0' hf
  exact ⟨e, d, h, hed⟩

theorem keypair_invariant_witness :
    ∃ e d, generateExponentFactors 1020096 6 1020096 = .ok (e, d) ∧ (e * d) % 1020096 = 1 :=
  keypair_invariant 1020096 6 1020096 (by decide) (by decide) (by decide) (by decide)
    (by decide)

/-- C6: `isPrime` has no false negatives. For every prime number `n < 2 ^ 32`,
`isPrime( n )` returns `true`. -/
theorem isPrime_of_prime (n : Nat) (hp : n.Prime) (hn : n < 2 ^ 32) : isPrime n = .ok true := by
  rw [isPrime_eq_fermatCheck n hp.two_le hn, fermatCheck_of_prime n hp]

theorem isPrime_of_prime_witness : isPrime 1009 = .ok true ∧ isPrime 7919 = .ok true :=
  ⟨isPrime_of_prime 1009 (by norm_num) (by decide),
    isPrime_of_prime 7919 (by norm_num) (by decide)⟩

/-- C7, as stated, fails: `1105 = 5 * 13 * 17` lies in the sampling range, is composite,
and `isPrime( 1105 )` returns `true`. -/
theorem isPrime_accepts_1105 :
    1001 ≤ 1105 ∧ 1105 ≤ 10001 ∧ ¬ Nat.Prime 1105 ∧ isPrime 1105 = .ok true := by
  refine ⟨by decide, by decide, by norm_num, ?_⟩
  decide!

/-- C7, amended: `isPrime` rejects the composites of the sampling range except the
Carmichael numbers. For every composite `n` with `1001 ≤ n ≤ 10001`, `isPrime( n )`
returns `false` unless `n` is one of `1105, 1729, 2465, 2821, 6601, 8911`, for which
it returns `true`. -/
theorem isPrime_composite_in_range (n : Nat) (h1 : 1001 ≤ n) (h2 : n ≤ 10001)
    (hc : ¬ n.Prime) : isPrime n = .ok (decide (n ∈ pseudoprimes)) := by
  by_cases hm : n ∈ pseudoprimes
  · have hU := universalExponent_pseudoprime n hm
    have hf : fermatCheck n = true := by
      unfold fermatCheck
      rw [List.all_eq_true]
      intro b _
      have := hU b (n - 1) (dvd_refl _)
      rw [Nat.sub_add_cancel (by omega)] at this
      exact decide_eq_true this
    rw [isPrime_eq_fermatCheck n (by omega) (by omega), hf, decide_eq_true hm]
  · rw [decide_eq_false hm, isPrime_eq_fermatCheck n (by omega) (by omega)]
    congr 1
    by_contra hf
    have hf' : fermatCheck n = true := by simpa using hf
    have hp : isPrime n = .ok true := by
      rw [isPrime_eq_fermatCheck n (by omega) (by omega), hf']
    rcases isPrime_classification n h1 (by omega) hp with h | h
    · exact hc h
    · exact hm h

theorem isPrime_composite_in_range_witness :
    isPrime 1001 = .ok (decide (1001 ∈ pseudoprimes)) :=
  isPrime_composite_in_range 1001 (by decide) (by decide) (by norm_num)

/-- C8 fails on the code: for the draw `10001` the walk of `getPrime` passes the composites
`10001`, `10003`, `10005` and returns `10007`, which lies above `PRIME_DIST_HI`. -/
theorem getPrime_leaves_interval :
    getPrime (2 ^ 27) 10001 = .ok 10007 ∧ isPrime 10001 = .ok false ∧
      isPrime 10003 = .ok false ∧ isPrime 10005 = .ok false ∧ isPrime 10007 = .ok true ∧
      ¬ ((10007 : Int) ≤ PRIME_DIST_HI) := by
  decide!

/-! ## Odd lengths and the reference encoding -/

theorem encryptPairs_odd (input : List Nat) (e n : Nat) :
    ∀ (m : Nat) (acc : List Int),
      encryptPairs input e n (2 * (m : Int)) acc =
        (0, (List.range m).map
          (fun k => encryptedBlock (input.getD (2 * k + 1) 0) (input.getD (2 * k + 2) 0) e n)
            ++ acc) := by
  intro m
  induction m with
  | zero =>
    intro acc
    rw [encryptPairs, if_neg (by simp)]
    simp
  | succ m ih =>
    intro acc
    rw [encryptPairs, if_pos (by push_cast; omega)]
    have h1 : (2 * ((m + 1 : Nat) : Int) - 1).toNat = 2 * m + 1 := by push_cast; omega
    have h2 : (2 * ((m + 1 : Nat) : Int)).toNat = 2 * m + 2 := by push_cast; omega
    have h3 : 2 * ((m + 1 : Nat) : Int) - 2 = 2 * (m : Int) := by push_cast; omega
    simp only [h1, h2, h3]
    rw [ih, List.range_succ, List.map_append, List.map_singleton, List.append_assoc]
    rfl

theorem encryptSingles_zero (input : List Nat) (e n : Nat) (acc : List Int) :
    encryptSingles input e n 0 acc = encryptedSingle (input.getD 0 0) e n :: acc := by
  rw [encryptSingles, if_pos (le_refl _)]
  simp only [Int.toNat_zero, zero_sub]
  rw [encryptSingles_neg]
  rfl

theorem encrypt_odd (input : List Nat) (e n m : Nat) (h : input.length = 2 * m + 1) :
    encrypt input e n = encryptedSingle (input.getD 0 0) e n :: (List.range m).map
      (fun k => encryptedBlock (input.getD (2 * k + 1) 0) (input.getD (2 * k + 2) 0) e n) := by
  unfold encrypt
  have hi : ((input.length : Nat) : Int) - 1 = 2 * (m : Int) := by rw [h]; push_cast; omega
  rw [hi, encryptPairs_odd]
  simp only [List.append_nil]
  exact encryptSingles_zero _ _ _ _

theorem encryptedBlock_eq (u l e n : Nat) (hu : u ≤ 127) (hl : l ≤ 127) (hn : 2 ≤ n)
    (hn' : n < 2 ^ 31) (he : e < 2 ^ 32) :
    encryptedBlock u l e n = (((1000 * u + l) ^ e % n : Nat) : Int) := by
  have hdata : toUInt (charToInt u * 1000 + charToInt l) = 1000 * u + l := by
    rw [charToInt_of_lt u (by omega), charToInt_of_lt l (by omega), toUInt_of_nonneg _
      (by omega) (by omega)]
    omega
  have hclt : (1000 * u + l) ^ e % n < n := Nat.mod_lt _ (by omega)
  unfold encryptedBlock
  rw [hdata, modularExponention_spec _ _ _ (by omega) (by omega) hn (by omega),
    toInt_of_lt _ (by omega)]

theorem encryptedSingle_eq (c e n : Nat) (hc : c ≤ 127) (hn : 2 ≤ n) (hn' : n < 2 ^ 31)
    (he : e < 2 ^ 32) : encryptedSingle c e n = ((c ^ e % n : Nat) : Int) := by
  have hdata : toUInt (charToInt c) = c := by
    rw [charToInt_of_lt c (by omega), toUInt_of_nonneg _ (by omega) (by omega)]
    omega
  have hclt : c ^ e % n < n := Nat.mod_lt _ (by omega)
  unfold encryptedSingle
  rw [hdata, modularExponention_spec _ _ _ (by omega) (by omega) hn (by omega),
    toInt_of_lt _ (by omega)]

theorem decryptBlock_encryptedSingle (c e d n : Nat) (hc : c ≤ 127) (hn : 255255 < n)
    (hn' : n < 2 ^ 31) (he : e < 2 ^ 32) (hd : d < 2 ^ 32)
    (hid : ∀ a, a ^ (e * d) % n = a % n) :
    decryptBlock (encryptedSingle c e n) d n = .ok [0, c] := by
  have hclt : c ^ e % n < n := Nat.mod_lt _ (by omega)
  have hback : toUInt (encryptedSingle c e n) = c ^ e % n := by
    rw [encryptedSingle_eq c e n hc (by omega) hn' he,
      toUInt_of_nonneg _ (Int.natCast_nonneg _) (by omega), Int.toNat_natCast]
  have hm : modularExponention (toUInt (encryptedSingle c e n)) d n = c := by
    rw [hback, modularExponention_spec _ _ _ (by omega) (by omega) (by omega) (by omega),
      ← Nat.pow_mod, ← pow_mul, hid]
    exact Nat.mod_eq_of_lt (by omega)
  rw [decryptBlock_eq _ d n c hm (by omega)]
  obtain ⟨h1, h2⟩ := padded_split c (by omega)
  have h1' : digitsVal ((padToSix (to_string ((c : Nat) : Int))).take 3) = 0 := by omega
  have h2' : digitsVal (((padToSix (to_string ((c : Nat) : Int))).drop 3).take 3) = c := by
    omega
  rw [h1', h2', intToChar_of_lt c (by omega)]
  rfl

theorem roundtrip_odd (e d n : Nat) (hn : 255255 < n) (hn' : n < 2 ^ 31) (he : e < 2 ^ 32)
    (hd : d < 2 ^ 32) (hid : ∀ a, a ^ (e * d) % n = a % n) (S : List Nat)
    (hS : S.length % 2 = 1) (hc : ∀ c ∈ S, c ≤ 127) :
    decrypt (encrypt S e n) d n = .ok (0 :: S) := by
  match S, hS, hc with
  | c :: rest, hS, hc =>
    have hrest : rest.length = 2 * (rest.length / 2) := by
      simp only [List.length_cons] at hS
      omega
    have hlen : (c :: rest).length = 2 * (rest.length / 2) + 1 := by
      simp only [List.length_cons]
      omega
    rw [encrypt_odd (c :: rest) e n _ hlen]
    have hmap : (List.range (rest.length / 2)).map
        (fun k => encryptedBlock ((c :: rest).getD (2 * k + 1) 0)
          ((c :: rest).getD (2 * k + 2) 0) e n) =
        (List.range (rest.length / 2)).map
          (fun k => encryptedBlock (rest.getD (2 * k) 0) (rest.getD (2 * k + 1) 0) e n) := by
      congr 1
    rw [hmap]
    unfold decrypt
    rw [decryptLoop]
    simp only [List.getD_cons_zero,
      decryptBlock_encryptedSingle c e d n (hc c (by simp)) hn hn' he hd hid, bind, Except.bind]
    rw [decryptLoop_blocks e d n hn hn' he hd hid _ rest ([] ++ [0, c]) hrest
      (fun x hx => hc x (by simp [hx]))]
    rfl

theorem getD_le_of_forall (S : List Nat) (hc : ∀ c ∈ S, c ≤ 127) (i : Nat) :
    S.getD i 0 ≤ 127 := by
  induction S generalizing i with
  | nil => simp
  | cons c cs ih =>
    cases i with
    | zero => simpa using hc c (by simp)
    | succ i =>
      rw [List.getD_cons_succ]
      exact ih (fun x hx => hc x (by simp [hx])) i

theorem encrypt_eq_reference (S : List Nat) (e n : Nat) (hc : ∀ c ∈ S, c ≤ 127)
    (he : e < 2 ^ 32) (hn : 2 ≤ n) (hn' : n < 2 ^ 31) :
    encrypt S e n = referenceEncrypt S e n := by
  unfold referenceEncrypt
  by_cases hpar : S.length % 2 = 0
  · rw [if_pos hpar, encrypt_even S e n (S.length / 2) (by omega)]
    apply List.map_congr_left
    intro k _
    exact encryptedBlock_eq _ _ e n (getD_le_of_forall S hc _) (getD_le_of_forall S hc _)
      hn hn' he
  · rw [if_neg hpar, encrypt_odd S e n (S.length / 2) (by omega),
      encryptedSingle_eq _ e n (getD_le_of_forall S hc 0) hn hn' he]
    congr 1
    apply List.map_congr_left
    intro k _
    exact encryptedBlock_eq _ _ e n (getD_le_of_forall S hc _) (getD_le_of_forall S hc _)
      hn hn' he

theorem referenceEncrypt_length (S : List Nat) (e n : Nat) :
    (referenceEncrypt S e n).length = (S.length + 1) / 2 := by
  unfold referenceEncrypt
  split
  · rw [List.length_map, List.length_range]; omega
  · rw [List.length_cons, List.length_map, List.length_range]; omega

/-! ## Claims on the codec -/

/-- C11: the odd-length asymmetry. For all distinct primes `p`, `q` with
`255255 < p * q < 2 ^ 31`, `n = p * q`, 32-bit `e` and `d` with
`(e * d) mod ((p - 1) * (q - 1)) = 1`, and every odd-length string `S` of characters with
codes in `0 .. 127`, `decrypt( encrypt( S, e, n ), d, n )` is the character of code `0`
followed by `S`: it has length `|S| + 1` and is never `S`. -/
theorem roundtrip_odd_length (p q e d : Nat) (hp : p.Prime) (hq : q.Prime) (hpq : p ≠ q)
    (hn : 255255 < p * q) (hn' : p * q < 2 ^ 31) (he : e < 2 ^ 32) (hd : d < 2 ^ 32)
    (hed : (e * d) % ((p - 1) * (q - 1)) = 1) (S : List Nat) (hS : S.length % 2 = 1)
    (hc : ∀ c ∈ S, c ≤ 127) :
    decrypt (encrypt S e (p * q)) d (p * q) = .ok (0 :: S) ∧
      (0 :: S).length = S.length + 1 ∧
      decrypt (encrypt S e (p * q)) d (p * q) ≠ .ok S := by
  have h := roundtrip_odd e d (p * q) hn hn' he hd
    (rsa_identity p q e d (universalExponent_prime p hp) (universalExponent_prime q hq)
      ((Nat.coprime_primes hp hq).2 hpq) hed) S hS hc
  refine ⟨h, rfl, ?_⟩
  rw [h]
  intro heq
  injection heq with heq
  have := congrArg List.length heq
  simp at this

theorem roundtrip_odd_length_witness :
    decrypt (encrypt [72, 105, 33] 5 (1009 * 1013)) 816077 (1009 * 1013) =
        .ok (0 :: [72, 105, 33]) ∧
      (0 :: [72, 105, 33]).length = [72, 105, 33].length + 1 ∧
      decrypt (encrypt [72, 105, 33] 5 (1009 * 1013)) 816077 (1009 * 1013) ≠
        .ok [72, 105, 33] :=
  roundtrip_odd_length 1009 1013 5 816077 (by norm_num) (by norm_num) (by decide)
    (by decide) (by decide) (by decide) (by decide) (by decide) [72, 105, 33]
    (by decide) (by decide)

/-- C13, as stated, fails for ordinals from `128` on: a plain `char` of code `200` is
read as `-56`, so the block of the string with the ordinals `200, 65` is
`modularExponention( 2 ^ 32 - 55935, e, n )` and not that of `200065`. -/
theorem encrypt_differs_from_reference :
    (5 : Nat) < 2 ^ 32 ∧ 2 ≤ 1022117 ∧ 1022117 < 2 ^ 31 ∧ (∀ c ∈ [200, 65], c ≤ 255) ∧
      encrypt [200, 65] 5 1022117 = [136083] ∧
      referenceEncrypt [200, 65] 5 1022117 = [398043] ∧
      encrypt [200, 65] 5 1022117 ≠ referenceEncrypt [200, 65] 5 1022117 := by
  decide!

/-- C13, amended: `encrypt` equals the reference block encoding in text order on
characters with ordinals in `0 .. 127`. For every such string `S` of length `L`, every
32-bit `e` and every `n` with `2 ≤ n < 2 ^ 31`, `encrypt( S, e, n )` is the list of
`ceil( L / 2 )` values of `referenceEncrypt`: the blocks `(1000 * c(2k) + c(2k+1)) ^ e mod n`
for even `L`, and `c(0) ^ e mod n` followed by the blocks
`(1000 * c(2k-1) + c(2k)) ^ e mod n` for odd `L`; the empty string gives the empty list. -/
theorem encrypt_refines_reference (S : List Nat) (e n : Nat) (hc : ∀ c ∈ S, c ≤ 127)
    (he : e < 2 ^ 32) (hn : 2 ≤ n) (hn' : n < 2 ^ 31) :
    encrypt S e n = referenceEncrypt S e n ∧
      (encrypt S e n).length = (S.length + 1) / 2 ∧ encrypt [] e n = [] := by
  have h := encrypt_eq_reference S e n hc he hn hn'
  refine ⟨h, ?_, ?_⟩
  · rw [h, referenceEncrypt_length]
  · rw [encrypt_even [] e n 0 rfl]
    rfl

theorem encrypt_refines_reference_witness :
    encrypt [72, 105, 33] 5 1022117 = referenceEncrypt [72, 105, 33] 5 1022117 ∧
      (encrypt [72, 105, 33] 5 1022117).length = ([72, 105, 33].length + 1) / 2 ∧
      encrypt [] 5 1022117 = [] :=
  encrypt_refines_reference [72, 105, 33] 5 1022117 (by decide) (by decide) (by decide)
    (by decide)

/-! ## Claims on the arithmetic and on key generation -/

/-- C12: `bezout` fails exactly on non-positive input. For all 32-bit signed `a` and `b`,
`bezout( a, b )` raises the fatal "Bad coefficients" condition if and only if `a ≤ 0` or
`b ≤ 0`; for `a > 0` and `b > 0` it terminates and returns a pair without raising. -/
theorem bezout_fatal_iff (a b : Int) (ha : inIntRange a) (hb : inIntRange b) :
    ((∃ diag, bezout a b = .error (.FatalError diag)) ↔ (a ≤ 0 ∨ b ≤ 0)) ∧
      ((a ≤ 0 ∨ b ≤ 0) → bezout a b = .error (.FatalError (.badCoefficients a b))) ∧
      (0 < a → 0 < b → ∃ pair, bezout a b = .ok pair) := by
  have hfatal : (a ≤ 0 ∨ b ≤ 0) → bezout a b = .error (.FatalError (.badCoefficients a b)) := by
    intro h
    unfold bezout
    rw [if_pos h]
  have hok : 0 < a → 0 < b → ∃ pair, bezout a b = .ok pair := by
    intro h1 h2
    obtain ⟨x, y, h, _⟩ := bezout_spec a b h1 ha.2 h2 hb.2
    exact ⟨⟨x, y⟩, h⟩
  refine ⟨⟨?_, fun h => ⟨_, hfatal h⟩⟩, hfatal, hok⟩
  rintro ⟨diag, hd⟩
  by_contra hpos
  obtain ⟨pair, hp⟩ := hok (by omega) (by omega)
  rw [hp] at hd
  exact Except.noConfusion hd

theorem bezout_fatal_iff_witness :
    ((∃ diag, bezout (-3) 5 = .error (.FatalError diag)) ↔ ((-3 : Int) ≤ 0 ∨ (5 : Int) ≤ 0)) ∧
      (((-3 : Int) ≤ 0 ∨ (5 : Int) ≤ 0) →
        bezout (-3) 5 = .error (.FatalError (.badCoefficients (-3) 5))) ∧
      ((0 : Int) < -3 → (0 : Int) < 5 → ∃ pair, bezout (-3) 5 = .ok pair) :=
  bezout_fatal_iff (-3) 5 (by decide) (by decide)

/-- C14: `inverseModN` returns the least non-negative modular inverse. For every `n` with
`2 ≤ n < 2 ^ 31` and every `e` with `1 ≤ e < n` and `GCD( e, n ) = 1`, the normalisation
loop terminates (two iterations of fuel are enough) and `r = inverseModN( e, n )`
satisfies `0 ≤ r < n` and `(e * r) mod n = 1`. -/
theorem inverseModN_least_residue (fuel e n : Nat) (hn2 : 2 ≤ n) (hn : n < 2 ^ 31)
    (he1 : 1 ≤ e) (he : e < n) (hg : GCD e n = 1) (hf : 2 ≤ fuel) :
    ∃ r, inverseModN fuel e n = .ok r ∧ 0 ≤ r ∧ r < n ∧ (e * r) % n = 1 := by
  rw [GCD_eq_gcd] at hg
  obtain ⟨r, h1, h2, h3⟩ := inverseModN_spec fuel e n hn2 hn he1 he hg hf
  exact ⟨r, h1, Nat.zero_le r, h2, h3⟩

theorem inverseModN_least_residue_witness :
    ∃ r, inverseModN 2 5 1020096 = .ok r ∧ 0 ≤ r ∧ r < 1020096 ∧ (5 * r) % 1020096 = 1 :=
  inverseModN_least_residue 2 5 1020096 (by decide) (by decide) (by decide) (by decide)
    (by decide!) (by decide)

/-- C15: the public-exponent search terminates inside the valid range. For every `phi`
with `3 ≤ phi < 2 ^ 31` and every initial candidate `e0` in `[2, phi - 1]`, the loop that
increments `e` while `GCD( e, phi ) != 1` terminates (within `phi` iterations), and the
resulting `e`, the first component of the result of `generateExponentFactors`, satisfies
`e0 ≤ e`, `1 < e < phi` and `GCD( e, phi ) = 1`. -/
theorem exponent_search_in_range (fuel : Nat) (e0 : Int) (phi : Nat) (hphi : 3 ≤ phi)
    (hphi' : phi < 2 ^ 31) (he0 : 2 ≤ e0) (he0' : e0 ≤ (phi : Int) - 1) (hf : phi ≤ fuel) :
    ∃ e d, exponentLoop phi fuel (toUInt e0) = .ok e ∧
      generateExponentFactors fuel e0 phi = .ok (e, d) ∧
      e0 ≤ (e : Int) ∧ 1 < e ∧ e < phi ∧ GCD e phi = 1 := by
  have hU : toUInt e0 = e0.toNat := toUInt_of_nonneg e0 (by omega) (by omega)
  obtain ⟨e, h1, h2, h3, h4⟩ := exponentLoop_spec phi (by omega) (by omega)
    (phi - 1 - e0.toNat) e0.toNat fuel (by omega) (by omega) (by omega)
  obtain ⟨d, h5, _, _⟩ := inverseModN_spec fuel e phi (by omega) hphi' (by omega) (by omega)
    h4 (by omega)
  refine ⟨e, d, by rw [hU, h1], ?_, by omega, by omega, by omega, by rw [GCD_eq_gcd, h4]⟩
  unfold generateExponentFactors
  simp only [hU, h1, h5]

theorem exponent_search_in_range_witness :
    ∃ e d, exponentLoop 1020096 1020096 (toUInt 6) = .ok e ∧
      generateExponentFactors 1020096 6 1020096 = .ok (e, d) ∧
      (6 : Int) ≤ (e : Int) ∧ 1 < e ∧ e < 1020096 ∧ GCD e 1020096 = 1 :=
  exponent_search_in_range 1020096 6 1020096 (by decide) (by decide) (by decide) (by decide)
    (by decide)

theorem modExpProductsFit_of_lt (n : Nat) (hn1 : 1 ≤ n) (hn : n ≤ 2 ^ 32) :
    ∀ (i cp res x : Nat), cp < 2 ^ 32 → res < 2 ^ 32 →
      modExpProductsFit n i cp res x ∧ modExpLoop n i cp res x < 2 ^ 32 := by
  intro i
  induction i with
  | zero =>
    intro cp res x _ hres
    exact ⟨trivial, hres⟩
  | succ i ih =>
    intro cp res x hcp hres
    have hsq : cp * cp < 2 ^ 64 := by nlinarith
    have hrc : res * cp < 2 ^ 64 := by nlinarith
    have hcp' : cp * cp % 2 ^ 64 % n < 2 ^ 32 := lt_of_lt_of_le (Nat.mod_lt _ hn1) hn
    have hres' : (if 1 &&& x ≠ 0 then res * cp % 2 ^ 64 % n else res) < 2 ^ 32 := by
      split
      · exact lt_of_lt_of_le (Nat.mod_lt _ hn1) hn
      · exact hres
    obtain ⟨h1, h2⟩ := ih _ _ (x >>> 1) hcp' hres'
    exact ⟨⟨hrc, hsq, h1⟩, h2⟩

/-- C16: `modularExponention` is overflow-free. For all 32-bit unsigned `b` and `x` and
every `n` with `1 ≤ n < 2 ^ 32`, in each of the 64 loop iterations both products
`result * curr_power` and `curr_power * curr_power` are below `2 ^ 64`, and the final
`result` is below `2 ^ 32`, so the narrowing cast to `unsigned int` loses nothing. -/
theorem modularExponention_no_overflow (b x n : Nat) (hb : b < 2 ^ 32) (_hx : x < 2 ^ 32)
    (hn1 : 1 ≤ n) (hn : n < 2 ^ 32) :
    modExpProductsFit n EXPSZ b 1 x ∧ modExpLoop n EXPSZ b 1 x < 2 ^ 32 ∧
      modularExponention b x n = modExpLoop n EXPSZ b 1 x := by
  obtain ⟨h1, h2⟩ := modExpProductsFit_of_lt n hn1 hn.le EXPSZ b 1 x hb (by omega)
  exact ⟨h1, h2, Nat.mod_eq_of_lt h2⟩

theorem modularExponention_no_overflow_witness :
    modExpProductsFit 1 EXPSZ 4294967295 1 4294967295 ∧
      modExpLoop 1 EXPSZ 4294967295 1 4294967295 < 2 ^ 32 ∧
      modularExponention 4294967295 4294967295 1 = modExpLoop 1 EXPSZ 4294967295 1 4294967295 :=
  modularExponention_no_overflow 4294967295 4294967295 1 (by decide) (by decide) (by decide)
    (by decide)

theorem isPrime_one : isPrime 1 = .ok true := by decide!

/-- C17: `isPrime` is exactly the Fermat check over the bases `2 .. 99`. `isPrime( 0 )`
raises the fatal "Modulus is not a positive integer" condition, and for every `n` with
`1 ≤ n < 2 ^ 32`, `isPrime( n )` returns without raising and is `true` if and only if
`(b ^ n) mod n = b mod n` for every base `b` in `2, ..., 99`. -/
theorem isPrime_is_fermat_check (n : Nat) (hn1 : 1 ≤ n) (hn : n < 2 ^ 32) :
    isPrime 0 = .error (.FatalError (.modulusNotPositive 0)) ∧
      ∃ r, isPrime n = .ok r ∧ (r = true ↔ ∀ b, 2 ≤ b → b ≤ 99 → b ^ n % n = b % n) := by
  refine ⟨rfl, ?_⟩
  by_cases h1 : n = 1
  · subst h1
    refine ⟨true, isPrime_one, ?_⟩
    simp [Nat.mod_one]
  · refine ⟨fermatCheck n, isPrime_eq_fermatCheck n (by omega) hn, ?_⟩
    unfold fermatCheck
    rw [List.all_eq_true]
    constructor
    · intro h b hb1 hb2
      have := h b (by rw [List.mem_range'_1]; omega)
      exact of_decide_eq_true this
    · intro h b hb
      rw [List.mem_range'_1] at hb
      exact decide_eq_true (h b (by omega) (by omega))

theorem isPrime_is_fermat_check_witness :
    isPrime 0 = .error (.FatalError (.modulusNotPositive 0)) ∧
      ∃ r, isPrime 1105 = .ok r ∧
        (r = true ↔ ∀ b, 2 ≤ b → b ≤ 99 → b ^ 1105 % 1105 = b % 1105) :=
  isPrime_is_fermat_check 1105 (by decide) (by decide)

/-! ## The set-up of main -/

theorem resampleLoop_spec (fuel p : Nat) (hf : 4504 ≤ fuel) :
    ∀ (draws : List Int) (q0 : Nat), (∀ r ∈ draws, 1001 ≤ r ∧ r ≤ 10001) →
      1001 ≤ q0 → q0 ≤ 10007 →
      (q0 ≠ p ∧ resampleLoop fuel p q0 draws = .ok q0) ∨
      (q0 = p ∧ (∀ r ∈ draws, getPrime fuel r = .ok p) ∧
        resampleLoop fuel p q0 draws = .error .fuel) ∨
      (q0 = p ∧ ∃ pre r post q, draws = pre ++ r :: post ∧
        (∀ x ∈ pre, getPrime fuel x = .ok p) ∧ getPrime fuel r = .ok q ∧ q ≠ p ∧
        1001 ≤ q ∧ q ≤ 10007 ∧ resampleLoop fuel p q0 draws = .ok q) := by
  intro draws
  induction draws with
  | nil =>
    intro q0 _ _ _
    rw [resampleLoop]
    by_cases h : q0 = p
    · exact Or.inr (Or.inl ⟨h, fun r hr => absurd hr (List.not_mem_nil r), if_pos h⟩)
    · exact Or.inl ⟨h, if_neg h⟩
  | cons r rs ih =>
    intro q0 hd _ _
    rw [resampleLoop]
    by_cases h : q0 = p
    · rw [if_pos h]
      obtain ⟨hr1, hr2⟩ := hd r (by simp)
      obtain ⟨q', e1, e2, e3, _⟩ := getPrime_spec fuel r hr1 hr2 hf
      simp only [e1]
      rcases ih q' (fun x hx => hd x (by simp [hx])) (by omega) e3 with
        ⟨hne, hl⟩ | ⟨heq, hall, hl⟩ | ⟨heq, pre, r', post, q, hsplit, hpre, hr', hne, hq1, hq2, hl⟩
      · exact Or.inr (Or.inr ⟨h, [], r, rs, q', rfl,
          fun x hx => absurd hx (List.not_mem_nil x), e1, hne, by omega, e3, hl⟩)
      · refine Or.inr (Or.inl ⟨h, ?_, hl⟩)
        intro x hx
        rcases List.mem_cons.1 hx with hx | hx
        · rw [hx, e1, heq]
        · exact hall x hx
      · refine Or.inr (Or.inr ⟨h, r :: pre, r', post, q, by rw [hsplit]; rfl, ?_, hr', hne,
          hq1, hq2, hl⟩)
        intro x hx
        rcases List.mem_cons.1 hx with hx | hx
        · rw [hx, e1, heq]
        · exact hpre x hx
    · exact Or.inl ⟨h, if_neg h⟩

/-- C18: key generation never reaches a fatal condition. For every pair of prime draws
`r1`, `r2` in `[1001, 10001]` both calls of `getPrime` return, with results `p` and `q0`.
The loop `while( q == p )` stops with `q = q0` when `q0` differs from `p`, and otherwise
with the result `q` of the first further draw whose result differs from `p`; for that `q`
and every exponent draw `e0` in `[2, phi - 1]` the set-up of `main` returns the key pair.
The loop is still running when `draws` (all in `[1001, 10001]`) are used up only if
`q0 = p` and every one of them gave `p` again. No call ends in `Error::FatalError`:
`isPrime`, `inverseModN` and `bezout` only get arguments they accept. -/
theorem key_generation_no_fatal (fuel : Nat) (r1 r2 : Int) (draws : List Int)
    (hr1 : 1001 ≤ r1) (hr1' : r1 ≤ 10001) (hr2 : 1001 ≤ r2) (hr2' : r2 ≤ 10001)
    (hd : ∀ r ∈ draws, 1001 ≤ r ∧ r ≤ 10001) (hf : 2 ^ 27 ≤ fuel) :
    ∃ p q0, getPrime fuel r1 = .ok p ∧ getPrime fuel r2 = .ok q0 ∧
      ((q0 = p ∧ (∀ r ∈ draws, getPrime fuel r = .ok p) ∧
          resampleLoop fuel p q0 draws = .error .fuel ∧
          ∀ e0 : Int, mainSetUp fuel r1 r2 draws e0 = .error .fuel) ∨
        ∃ q, resampleLoop fuel p q0 draws = .ok q ∧ q ≠ p ∧
          ((q0 ≠ p ∧ q = q0) ∨
            (q0 = p ∧ ∃ pre r post, draws = pre ++ r :: post ∧
              (∀ x ∈ pre, getPrime fuel x = .ok p) ∧ getPrime fuel r = .ok q)) ∧
          ∀ e0 : Int, 2 ≤ e0 → e0 ≤ (getEulerPhi p q : Int) - 1 →
            ∃ e d, mainSetUp fuel r1 r2 draws e0 = .ok ⟨p * q % 2 ^ 32, e, d⟩) ∧
      (q0 ≠ p → resampleLoop fuel p q0 draws = .ok q0) := by
  obtain ⟨p, hp1, hp2, hp3, _⟩ := getPrime_spec fuel r1 hr1 hr1' (by omega)
  obtain ⟨q0, hq1, hq2, hq3, _⟩ := getPrime_spec fuel r2 hr2 hr2' (by omega)
  refine ⟨p, q0, hp1, hq1, ?_, fun h => resampleLoop_of_ne fuel p q0 draws h⟩
  have hkeys : ∀ q, resampleLoop fuel p q0 draws = .ok q → 1001 ≤ q → q ≤ 10007 →
      ∀ e0 : Int, 2 ≤ e0 → e0 ≤ (getEulerPhi p q : Int) - 1 →
        ∃ e d, mainSetUp fuel r1 r2 draws e0 = .ok ⟨p * q % 2 ^ 32, e, d⟩ := by
    intro q h hql hqh e0 he0 he0'
    obtain ⟨hphi, hphi3, hphi'⟩ := getEulerPhi_eq p q (by omega) hp3 hql hqh
    rw [hphi] at he0'
    obtain ⟨e, d, hg, _⟩ := generateExponentFactors_spec fuel e0 ((p - 1) * (q - 1)) hphi3
      (by omega) he0 he0' (by omega)
    refine ⟨e, d, ?_⟩
    unfold mainSetUp
    simp only [hp1, hq1, h, hphi, hg]
  rcases resampleLoop_spec fuel p (by omega) draws q0 hd (by omega) hq3 with
    ⟨hne, hl⟩ | ⟨heq, hall, hl⟩ | ⟨heq, pre, r, post, q, hsplit, hpre, hr, hne, hql, hqh, hl⟩
  · exact Or.inr ⟨q0, hl, hne, Or.inl ⟨hne, rfl⟩, hkeys q0 hl (by omega) hq3⟩
  · refine Or.inl ⟨heq, hall, hl, fun e0 => ?_⟩
    unfold mainSetUp
    simp only [hp1, hq1, hl]
  · exact Or.inr ⟨q, hl, hne, Or.inr ⟨heq, pre, r, post, hsplit, hpre, hr⟩,
      hkeys q hl hql hqh⟩

theorem key_generation_no_fatal_witness :
    ∃ p q0, getPrime (2 ^ 27) 1104 = .ok p ∧ getPrime (2 ^ 27) 1105 = .ok q0 ∧
      ((q0 = p ∧ (∀ r ∈ [2000], getPrime (2 ^ 27) r = .ok p) ∧
          resampleLoop (2 ^ 27) p q0 [2000] = .error .fuel ∧
          ∀ e0 : Int, mainSetUp (2 ^ 27) 1104 1105 [2000] e0 = .error .fuel) ∨
        ∃ q, resampleLoop (2 ^ 27) p q0 [2000] = .ok q ∧ q ≠ p ∧
          ((q0 ≠ p ∧ q = q0) ∨
            (q0 = p ∧ ∃ pre r post, [2000] = pre ++ r :: post ∧
              (∀ x ∈ pre, getPrime (2 ^ 27) x = .ok p) ∧ getPrime (2 ^ 27) r = .ok q)) ∧
          ∀ e0 : Int, 2 ≤ e0 → e0 ≤ (getEulerPhi p q : Int) - 1 →
            ∃ e d, mainSetUp (2 ^ 27) 1104 1105 [2000] e0 = .ok ⟨p * q % 2 ^ 32, e, d⟩) ∧
      (q0 ≠ p → resampleLoop (2 ^ 27) p q0 [2000] = .ok q0) :=
  key_generation_no_fatal (2 ^ 27) 1104 1105 [2000] (by decide) (by decide) (by decide)
    (by decide) (by decide) (by decide)

/-- C19, as stated, fails in its consequence that no plaintext block wraps: for the
draws `1009` and `10001` the modulus is `1009 * 10007`, it satisfies the three numeric
bounds, and yet the block of the characters with the codes `200, 65` is `2 ^ 32 - 55935`
(the code `200` is read as `-56`), which is above the modulus, so that with the exponent
`1` `encrypt` stores the wrapped value `3659586`. -/
theorem modulus_block_wraps :
    getPrime (2 ^ 27) 1009 = .ok 1009 ∧ getPrime (2 ^ 27) 10001 = .ok 10007 ∧
      (1009 : Nat) ≠ 10007 ∧ 1009 * 10007 % 2 ^ 32 = 1009 * 10007 ∧
      1009 * 10007 < 2 ^ 31 ∧ 255255 < 1009 * 10007 ∧
      toUInt (charToInt 200 * 1000 + charToInt 65) = 2 ^ 32 - 55935 ∧
      ¬ (toUInt (charToInt 200 * 1000 + charToInt 65) < 1009 * 10007) ∧
      toUInt (charToInt 200 * 1000 + charToInt 65) % (1009 * 10007) = 3659586 ∧
      encrypt [200, 65] 1 (1009 * 10007 % 2 ^ 32) = [3659586] := by
  decide!

/-- C19, amended: every generated modulus is large enough for two-character blocks of
characters with codes in `0 .. 127`. For every pair of draws `r1`, `r2` in
`[1001, 10001]` the results `p = getPrime( r1 )` and `q = getPrime( r2 )` exist, and the
modulus `n = p * q` computed in 32-bit unsigned arithmetic equals the exact product, is
below `2 ^ 31`, and exceeds `255255`, the largest combined block code `255 * 1000 + 255`;
so no block that `encrypt` forms from one or two characters with codes in `0 .. 127`
wraps modulo `n`. -/
theorem modulus_large_enough (fuel : Nat) (r1 r2 : Int) (hr1 : 1001 ≤ r1) (hr1' : r1 ≤ 10001)
    (hr2 : 1001 ≤ r2) (hr2' : r2 ≤ 10001) (hf : 4504 ≤ fuel) :
    ∃ p q, getPrime fuel r1 = .ok p ∧ getPrime fuel r2 = .ok q ∧
      p * q % 2 ^ 32 = p * q ∧ p * q < 2 ^ 31 ∧ 255 * 1000 + 255 < p * q ∧
      ∀ u l : Nat, u ≤ 127 → l ≤ 127 →
        toUInt (charToInt u * 1000 + charToInt l) < p * q ∧
        toUInt (charToInt u * 1000 + charToInt l) % (p * q) =
          toUInt (charToInt u * 1000 + charToInt l) ∧
        toUInt (charToInt u) < p * q ∧
        toUInt (charToInt u) % (p * q) = toUInt (charToInt u) := by
  obtain ⟨p, hp1, hp2, hp3, _⟩ := getPrime_spec fuel r1 hr1 hr1' hf
  obtain ⟨q, hq1, hq2, hq3, _⟩ := getPrime_spec fuel r2 hr2 hr2' hf
  have hlo : 1001 * 1001 ≤ p * q := Nat.mul_le_mul (by omega) (by omega)
  have hhi : p * q ≤ 10007 * 10007 := Nat.mul_le_mul hp3 hq3
  refine ⟨p, q, hp1, hq1, Nat.mod_eq_of_lt (by omega), by omega, by omega, ?_⟩
  intro u l hu hl
  have hblock : toUInt (charToInt u * 1000 + charToInt l) = 1000 * u + l := by
    rw [charToInt_of_lt u (by omega), charToInt_of_lt l (by omega), toUInt_of_nonneg _
      (by omega) (by omega)]
    omega
  have hsingle : toUInt (charToInt u) = u := by
    rw [charToInt_of_lt u (by omega), toUInt_of_nonneg _ (by omega) (by omega)]
    omega
  rw [hblock, hsingle]
  exact ⟨by omega, Nat.mod_eq_of_lt (by omega), by omega, Nat.mod_eq_of_lt (by omega)⟩

theorem modulus_large_enough_witness :
    ∃ p q, getPrime 4504 1001 = .ok p ∧ getPrime 4504 10001 = .ok q ∧
      p * q % 2 ^ 32 = p * q ∧ p * q < 2 ^ 31 ∧ 255 * 1000 + 255 < p * q ∧
      ∀ u l : Nat, u ≤ 127 → l ≤ 127 →
        toUInt (charToInt u * 1000 + charToInt l) < p * q ∧
        toUInt (charToInt u * 1000 + charToInt l) % (p * q) =
          toUInt (charToInt u * 1000 + charToInt l) ∧
        toUInt (charToInt u) < p * q ∧
        toUInt (charToInt u) % (p * q) = toUInt (charToInt u) :=
  modulus_large_enough 4504 1001 10001 (by decide) (by decide) (by decide) (by decide)
    (by decide)

end RSA
